import Mathlib

/-!
Verification of the fuzzy string-matching core in src/cppmatch.cpp:
the Levenshtein metric, the BK-tree (insert, range search), the index-based
serialization form, and the binary file persistence format.

Strings are modelled as their character sequences (`List Char`); the C++
code treats a `std::string` as an opaque byte/character sequence, and the
embedding maps each stored byte slot to one character.  Machine integers
are modelled as `Nat`/`Int`, with explicit `% 2 ^ 32` at the points where
the code performs `static_cast<std::uint32_t>`.
-/

set_option maxHeartbeats 1600000
set_option maxRecDepth 8192

namespace BKVerify

/-- The Levenshtein recurrence, read structurally on the first characters:
`lev [] ys = |ys|`, `lev xs [] = |xs|`, and in the two-cons case the minimum
of deletion, insertion, and substitution.  This is the same recurrence the
DP table in `levenshtein` (src/cppmatch.cpp lines 23-39) computes; the
equivalence with the table is proved in `dpF_eq_lev`. -/
def lev : List Char → List Char → Nat
  | [], ys => ys.length
  | x :: xs, [] => (x :: xs).length
  | x :: xs, y :: ys =>
      min (min (lev xs (y :: ys) + 1) (lev (x :: xs) ys + 1))
        (lev xs ys + (if x = y then 0 else 1))
termination_by a b => a.length + b.length

/-- The DP table of `levenshtein` (src/cppmatch.cpp lines 23-39), as the
function its loop nest computes: `dpF s1 s2 i j` is `dp[i][j]`, with
`dp[i][0] = i`, `dp[0][j] = j`, and
`dp[i][j] = min(dp[i-1][j]+1, dp[i][j-1]+1, dp[i-1][j-1] + cost)`,
where `cost` compares `s1[i-1]` with `s2[j-1]`. -/
def dpF (s1 s2 : List Char) : Nat → Nat → Nat
  | i, 0 => i
  | 0, j + 1 => j + 1
  | i + 1, j + 1 =>
      min (min (dpF s1 s2 i (j + 1) + 1) (dpF s1 s2 (i + 1) j + 1))
        (dpF s1 s2 i j + (if s1.getD i 'a' = s2.getD j 'a' then 0 else 1))
termination_by i j => i + j

/-- Embedding of `levenshtein` (src/cppmatch.cpp lines 16-40): if either
input is empty return the other's length, otherwise evaluate the DP table
at `(|s1|, |s2|)`. -/
def levenshtein (s1 s2 : String) : Nat :=
  let m := s1.data.length
  let n := s2.data.length
  if m = 0 then n
  else if n = 0 then m
  else dpF s1.data s2.data m n

theorem lev_nil_left (ys : List Char) : lev [] ys = ys.length := by
  simp [lev]

theorem lev_nil_right (xs : List Char) : lev xs [] = xs.length := by
  cases xs <;> simp [lev]

theorem lev_cons_cons (x y : Char) (xs ys : List Char) :
    lev (x :: xs) (y :: ys) =
      min (min (lev xs (y :: ys) + 1) (lev (x :: xs) ys + 1))
        (lev xs ys + (if x = y then 0 else 1)) := by
  simp [lev]


/-- The snoc form of the Levenshtein recurrence: removing the LAST
characters satisfies the same min-of-three recurrence.  This is what makes
the prefix-indexed DP table of the C++ code compute the same function as
the head recursion `lev`. -/
theorem lev_snoc (x y : Char) : (a b : List Char) →
    lev (a ++ [x]) (b ++ [y]) =
      min (min (lev a (b ++ [y]) + 1) (lev (a ++ [x]) b + 1))
        (lev a b + (if x = y then 0 else 1))
  | [], [] => by simp [lev]
  | [], z :: b' => by
    have ih := lev_snoc x y [] b'
    simp only [List.nil_append, List.cons_append] at ih ⊢
    rw [lev_cons_cons x z [] (b' ++ [y]), ih, lev_cons_cons x z [] b']
    simp only [lev_nil_left, List.length_cons, List.length_append, List.length_nil]
    omega
  | w :: a', [] => by
    have ih := lev_snoc x y a' []
    simp only [List.nil_append, List.cons_append] at ih ⊢
    rw [lev_cons_cons w y (a' ++ [x]) [], ih, lev_cons_cons w y a' []]
    simp only [lev_nil_left, lev_nil_right, List.length_cons, List.length_append,
      List.length_nil]
    omega
  | w :: a', z :: b' => by
    have ih1 := lev_snoc x y a' (z :: b')
    have ih2 := lev_snoc x y (w :: a') b'
    have ih3 := lev_snoc x y a' b'
    simp only [List.cons_append] at ih1 ih2 ih3 ⊢
    rw [lev_cons_cons w z (a' ++ [x]) (b' ++ [y]), ih1, ih2, ih3,
      lev_cons_cons w z a' (b' ++ [y]),
      lev_cons_cons w z (a' ++ [x]) b',
      lev_cons_cons w z a' b']
    simp only [← min_add_add_right, Nat.min_assoc]
    simp only [Nat.add_assoc]
    simp only [Nat.min_comm, Nat.min_left_comm, Nat.add_comm, Nat.add_left_comm]
termination_by a b => a.length + b.length

theorem take_succ_getD (d : Char) : (l : List Char) → (i : Nat) → i < l.length →
    l.take (i + 1) = l.take i ++ [l.getD i d]
  | [], i, h => by simp at h
  | c :: t, 0, h => by simp
  | c :: t, i + 1, h => by
    simp only [List.take_succ_cons, List.getD_cons_succ]
    rw [take_succ_getD d t i (by simpa using h)]
    simp

/-- The DP table of the C++ code evaluates, at each in-range position
`(i, j)`, to the Levenshtein distance of the prefixes of length `i` and
`j`. -/
theorem dpF_eq_lev (s1 s2 : List Char) : (i j : Nat) → i ≤ s1.length → j ≤ s2.length →
    dpF s1 s2 i j = lev (s1.take i) (s2.take j)
  | i, 0, h1, _ => by
    simp only [dpF, List.take_zero, lev_nil_right, List.length_take]
    omega
  | 0, j + 1, _, h2 => by
    simp only [dpF, List.take_zero, lev_nil_left, List.length_take]
    omega
  | i + 1, j + 1, h1, h2 => by
    have e1 := take_succ_getD 'a' s1 i (by omega)
    have e2 := take_succ_getD 'a' s2 j (by omega)
    simp only [dpF]
    rw [dpF_eq_lev s1 s2 i (j + 1) (by omega) h2,
      dpF_eq_lev s1 s2 (i + 1) j h1 (by omega),
      dpF_eq_lev s1 s2 i j (by omega) (by omega),
      e1, e2, lev_snoc]
termination_by i j => i + j

/-- `levenshtein` computes the Levenshtein distance of the two character
sequences. -/
theorem levenshtein_eq_lev (s1 s2 : String) : levenshtein s1 s2 = lev s1.data s2.data := by
  unfold levenshtein
  by_cases h1 : s1.data.length = 0
  · simp only [h1, if_true]
    rw [List.length_eq_zero.mp h1, lev_nil_left]
  · by_cases h2 : s2.data.length = 0
    · simp only [h1, h2, if_false, if_true]
      rw [List.length_eq_zero.mp h2, lev_nil_right]
    · simp only [h1, h2, if_false]
      rw [dpF_eq_lev s1.data s2.data _ _ le_rfl le_rfl, List.take_length, List.take_length]

theorem lev_cons_le (x : Char) (a b : List Char) : lev (x :: a) b ≤ lev a b + 1 := by
  cases b with
  | nil => simp [lev_nil_right]
  | cons y b' =>
    rw [lev_cons_cons]
    exact le_trans (Nat.min_le_left _ _) (Nat.min_le_left _ _)

theorem lev_le_cons (y : Char) (a b : List Char) : lev a (y :: b) ≤ lev a b + 1 := by
  cases a with
  | nil => simp [lev_nil_left]
  | cons x a' =>
    rw [lev_cons_cons]
    exact le_trans (Nat.min_le_left _ _) (Nat.min_le_right _ _)

theorem lev_le_add_left (y : Char) (b : List Char) : (a : List Char) →
    lev a b ≤ lev a (y :: b) + 1
  | [] => by
    simp only [lev_nil_left, List.length_cons]
    omega
  | w :: a' => by
    have h1 := lev_cons_le w a' b
    have h2 := lev_le_add_left y b a'
    rw [lev_cons_cons w y a' b]
    omega

theorem lev_symm : (a b : List Char) → lev a b = lev b a
  | [], b => by simp [lev_nil_left, lev_nil_right]
  | x :: a, [] => by simp [lev_nil_left, lev_nil_right]
  | x :: a, y :: b => by
    rw [lev_cons_cons x y, lev_cons_cons y x,
      lev_symm a (y :: b), lev_symm (x :: a) b, lev_symm a b]
    have hc : (if x = y then (0 : Nat) else 1) = (if y = x then 0 else 1) := by
      by_cases h : x = y <;> simp [h, Ne.symm]
    rw [hc, Nat.min_comm (lev (y :: b) a + 1) (lev b (x :: a) + 1)]
termination_by a b => a.length + b.length

theorem lev_le_add_right (x : Char) (a b : List Char) : lev a b ≤ lev (x :: a) b + 1 := by
  rw [lev_symm a b, lev_symm (x :: a) b]
  exact lev_le_add_left x a b

theorem lev_self : (a : List Char) → lev a a = 0
  | [] => by simp [lev_nil_left]
  | x :: a => by
    rw [lev_cons_cons]
    have := lev_self a
    simp [this]

theorem lev_eq_zero : (a b : List Char) → lev a b = 0 → a = b
  | [], b => by
    rw [lev_nil_left]
    intro h
    exact (List.length_eq_zero.mp h).symm
  | x :: a, [] => by
    rw [lev_nil_right]
    intro h
    simp at h
  | x :: a, y :: b => by
    rw [lev_cons_cons]
    intro h
    have hxy : x = y := by
      by_cases hc : x = y
      · exact hc
      · rw [if_neg hc] at h
        omega
    have hab : lev a b = 0 := by
      rw [if_pos hxy] at h
      omega
    rw [hxy, lev_eq_zero a b hab]
termination_by a b => a.length + b.length

theorem lev_eq_zero_iff (a b : List Char) : lev a b = 0 ↔ a = b := by
  constructor
  · exact lev_eq_zero a b
  · intro h
    rw [h]
    exact lev_self b

theorem lev_le_sum : (a b : List Char) → lev a b ≤ a.length + b.length
  | [], b => by simp [lev_nil_left]
  | x :: a, b => by
    have h1 := lev_cons_le x a b
    have h2 := lev_le_sum a b
    simp only [List.length_cons]
    omega

theorem length_le_lev : (a b : List Char) → b.length ≤ a.length + lev a b
  | [], b => by simp [lev_nil_left]
  | x :: a, [] => by simp
  | x :: a, y :: b => by
    have h1 := length_le_lev a (y :: b)
    have h2 := length_le_lev (x :: a) b
    have h3 := length_le_lev a b
    rw [lev_cons_cons]
    simp only [List.length_cons] at *
    omega
termination_by a b => a.length + b.length

/-- The triangle inequality for the Levenshtein distance. -/
theorem lev_triangle : (a b c : List Char) → lev a c ≤ lev a b + lev b c
  | [], b, c => by
    have := length_le_lev b c
    simp only [lev_nil_left]
    omega
  | x :: a, [], c => by
    have := lev_le_sum (x :: a) c
    simp only [lev_nil_right, lev_nil_left]
    omega
  | x :: a, y :: b, [] => by
    have h := length_le_lev (y :: b) (x :: a)
    rw [lev_symm (y :: b) (x :: a)] at h
    simp only [lev_nil_right]
    omega
  | x :: a, y :: b, z :: c => by
    have hab := lev_cons_cons x y a b
    have hbc := lev_cons_cons y z b c
    have hac := lev_cons_cons x z a c
    have i1 := lev_triangle a (y :: b) (z :: c)
    have i2 := lev_triangle (x :: a) (y :: b) c
    have i3 := lev_triangle a b (z :: c)
    have i5 := lev_triangle a b c
    have i6 := lev_triangle (x :: a) b (z :: c)
    have i7 := lev_le_cons z b c
    have hcost : (if x = z then (0 : Nat) else 1) ≤
        (if x = y then (0 : Nat) else 1) + (if y = z then (0 : Nat) else 1) := by
      by_cases h1 : x = y <;> by_cases h2 : y = z <;> simp [h1, h2] <;> split <;> omega
    omega
termination_by a b c => a.length + b.length + c.length

/-- Claim C2: the distance function is a metric on strings: non-negative,
symmetric, zero iff the strings are equal, satisfies the triangle
inequality, and the distance from the empty string to `s` is the length of
`s`. -/
theorem spec_C2 :
    (∀ a b : String, 0 ≤ (levenshtein a b : Int))
      ∧ (∀ a b : String, levenshtein a b = levenshtein b a)
      ∧ (∀ a b : String, levenshtein a b = 0 ↔ a = b)
      ∧ (∀ a b c : String, levenshtein a c ≤ levenshtein a b + levenshtein b c)
      ∧ (∀ s : String, levenshtein "" s = s.length) := by
  refine ⟨fun a b => Int.ofNat_nonneg _, fun a b => ?_, fun a b => ?_, fun a b c => ?_, fun s => ?_⟩
  · rw [levenshtein_eq_lev, levenshtein_eq_lev, lev_symm]
  · rw [levenshtein_eq_lev, lev_eq_zero_iff]
    constructor
    · intro h
      cases a
      cases b
      simp at h
      rw [h]
    · intro h
      rw [h]
  · rw [levenshtein_eq_lev, levenshtein_eq_lev, levenshtein_eq_lev]
    exact lev_triangle a.data b.data c.data
  · rw [levenshtein_eq_lev]
    exact lev_nil_left s.data

/-- A BK-tree node (`struct BKNode`, src/cppmatch.cpp lines 43-48): the
stored term and the ordered list of `(distance, child)` edges.  Edge
distances are `Int`, mirroring the C++ `int`. -/
inductive BKNode where
  | node (term : String) (children : List (Int × BKNode))

/-- Strong induction over `BKNode`, recursing through the child list. -/
theorem BKNode.strongInduction {motive : BKNode → Prop}
    (h : ∀ t cs, (∀ d c, (d, c) ∈ cs → motive c) → motive (.node t cs)) :
    ∀ n, motive n
  | .node t cs => h t cs (fun _ c hm => BKNode.strongInduction h c)
termination_by n => sizeOf n
decreasing_by
  have h1 := List.sizeOf_lt_of_mem hm
  simp only [Prod.mk.sizeOf_spec, BKNode.node.sizeOf_spec] at h1 ⊢
  omega

mutual

/-- Embedding of `BKTree::insertHelper` (src/cppmatch.cpp lines 55-75) on a
non-null node: if the distance to the stored term is zero the term is a
duplicate and nothing changes; otherwise the child list is updated along
the edge whose weight equals that distance. -/
def insertHelper : BKNode → String → BKNode
  | .node t cs, term =>
    if (levenshtein t term : Int) = 0 then .node t cs
    else .node t (insertChildren cs (levenshtein t term) term)
termination_by n _ => sizeOf n
decreasing_by
  all_goals simp only [Prod.mk.sizeOf_spec, BKNode.node.sizeOf_spec, List.cons.sizeOf_spec] <;> omega

/-- The child-list walk of `BKTree::insertHelper`: recurse into the first
child whose edge weight equals `dist`, or append a fresh leaf at the end
(`push_back`) when no edge has that weight. -/
def insertChildren : List (Int × BKNode) → Int → String → List (Int × BKNode)
  | [], dist, term => [(dist, .node term [])]
  | (d, c) :: rest, dist, term =>
    if d = dist then (d, insertHelper c term) :: rest
    else (d, c) :: insertChildren rest dist term
termination_by cs _ _ => sizeOf cs
decreasing_by
  all_goals simp only [Prod.mk.sizeOf_spec, BKNode.node.sizeOf_spec, List.cons.sizeOf_spec] <;> omega

end

/-- Embedding of `BKTree::insert` (src/cppmatch.cpp lines 128-130): the
tree is an optional root (`std::shared_ptr<BKNode> root`, null when the
tree is empty); inserting into the empty tree creates the root. -/
def insert : Option BKNode → String → Option BKNode
  | none, term => some (.node term [])
  | some n, term => some (insertHelper n term)

mutual

/-- Embedding of `BKTree::searchHelper` (src/cppmatch.cpp lines 77-95) on a
non-null node: record the term when its distance to the query is within
`maxDist`, then walk the children. -/
def searchHelper : BKNode → String → Int → List (String × Int)
  | .node t cs, query, maxDist =>
    (if (levenshtein t query : Int) ≤ maxDist then [(t, (levenshtein t query : Int))] else [])
      ++ searchChildren cs query maxDist (levenshtein t query)
termination_by n _ _ => sizeOf n
decreasing_by
  all_goals simp only [Prod.mk.sizeOf_spec, BKNode.node.sizeOf_spec, List.cons.sizeOf_spec] <;> omega

/-- The child loop of `BKTree::searchHelper`: descend into a child edge of
weight `w` exactly when `dist - maxDist ≤ w ≤ dist + maxDist`. -/
def searchChildren : List (Int × BKNode) → String → Int → Int → List (String × Int)
  | [], _, _, _ => []
  | (w, c) :: rest, query, maxDist, dist =>
    (if dist - maxDist ≤ w ∧ w ≤ dist + maxDist then searchHelper c query maxDist else [])
      ++ searchChildren rest query maxDist dist
termination_by cs _ _ _ => sizeOf cs
decreasing_by
  all_goals simp only [Prod.mk.sizeOf_spec, BKNode.node.sizeOf_spec, List.cons.sizeOf_spec] <;> omega

end

/-- The sort predicate of `BKTree::search` (src/cppmatch.cpp lines 137-141):
ascending by distance, ties broken by lexicographic comparison of the
terms.  `resLe a b` holds exactly when the strict C++ comparator does not
place `b` before `a`. -/
def resLe (a b : String × Int) : Bool :=
  decide (a.2 < b.2 ∨ (a.2 = b.2 ∧ a.1 ≤ b.1))

/-- The results vector of `BKTree::search` before the final sort: empty
when the root is null, otherwise the traversal results. -/
def searchRaw (t : Option BKNode) (query : String) (maxDist : Int) : List (String × Int) :=
  match t with
  | none => []
  | some n => searchHelper n query maxDist

/-- Embedding of `BKTree::search` (src/cppmatch.cpp lines 132-144): collect
the matches from the root (none for an empty tree), then sort them by
(distance, term). -/
def search (t : Option BKNode) (query : String) (maxDist : Int) : List (String × Int) :=
  (searchRaw t query maxDist).mergeSort resLe

mutual

/-- All terms stored in the subtree rooted at a node. -/
def termsOf : BKNode → List String
  | .node t cs => t :: termsChildren cs
termination_by n => sizeOf n
decreasing_by
  all_goals simp only [Prod.mk.sizeOf_spec, BKNode.node.sizeOf_spec, List.cons.sizeOf_spec] <;> omega

/-- All terms stored in a child list. -/
def termsChildren : List (Int × BKNode) → List String
  | [] => []
  | (_, c) :: rest => termsOf c ++ termsChildren rest
termination_by cs => sizeOf cs
decreasing_by
  all_goals simp only [Prod.mk.sizeOf_spec, BKNode.node.sizeOf_spec, List.cons.sizeOf_spec] <;> omega

end

/-- The BK-tree routing invariant maintained by insertion: at every node,
edge weights are pairwise distinct (at most one child per distance), every
edge weight is non-zero, and every term stored in the subtree behind an
edge of weight `d` is at Levenshtein distance exactly `d` from the node's
term. -/
inductive Inv : BKNode → Prop where
  | node {t : String} {cs : List (Int × BKNode)}
      (hnodup : (cs.map Prod.fst).Nodup)
      (hdist : ∀ d c, (d, c) ∈ cs → d ≠ 0 ∧ ∀ s, s ∈ termsOf c → (levenshtein t s : Int) = d)
      (hchild : ∀ d c, (d, c) ∈ cs → Inv c) :
      Inv (.node t cs)

/-- The tree built by the public API: start with the empty tree and insert
the given terms in order. -/
def build (ts : List String) : Option BKNode :=
  ts.foldl insert none

/-- The term stored at a node. -/
def BKNode.term : BKNode → String
  | .node t _ => t

/-- The child list of a node. -/
def BKNode.children : BKNode → List (Int × BKNode)
  | .node _ cs => cs

/-- The terms of a tree (empty for the empty tree). -/
def termsOpt : Option BKNode → List String
  | none => []
  | some n => termsOf n

theorem levenshtein_eq_zero_iff (a b : String) : levenshtein a b = 0 ↔ a = b := by
  rw [levenshtein_eq_lev, lev_eq_zero_iff]
  constructor
  · intro h
    cases a
    cases b
    simp only at h
    rw [h]
  · intro h
    rw [h]

theorem levenshtein_self (a : String) : levenshtein a a = 0 :=
  (levenshtein_eq_zero_iff a a).mpr rfl

theorem term_mem_termsOf (n : BKNode) : n.term ∈ termsOf n := by
  cases n with
  | node t cs =>
    simp [BKNode.term, termsOf]

theorem mem_termsChildren {s : String} : (cs : List (Int × BKNode)) →
    (s ∈ termsChildren cs ↔ ∃ d c, (d, c) ∈ cs ∧ s ∈ termsOf c)
  | [] => by simp [termsChildren]
  | (d, c) :: rest => by
    simp only [termsChildren, List.mem_append, mem_termsChildren rest, List.mem_cons]
    constructor
    · rintro (h | ⟨d', c', hm, hs⟩)
      · exact ⟨d, c, Or.inl rfl, h⟩
      · exact ⟨d', c', Or.inr hm, hs⟩
    · rintro ⟨d', c', hm | hm, hs⟩
      · rw [Prod.mk.injEq] at hm
        rw [← hm.2]
        exact Or.inl hs
      · exact Or.inr ⟨d', c', hm, hs⟩

theorem mem_termsOf_node {s t : String} {cs : List (Int × BKNode)} :
    s ∈ termsOf (.node t cs) ↔ s = t ∨ ∃ d c, (d, c) ∈ cs ∧ s ∈ termsOf c := by
  simp only [termsOf, List.mem_cons, mem_termsChildren cs]

/-- Case analysis of the child-list update: each entry of the updated list
is an old entry, the updated matched entry, or the freshly appended leaf
(appended only when no edge weight matched). -/
theorem insertChildren_cases {dist : Int} {term : String} {p : Int × BKNode} :
    (cs : List (Int × BKNode)) → p ∈ insertChildren cs dist term →
      p ∈ cs
        ∨ (∃ c, (dist, c) ∈ cs ∧ p = (dist, insertHelper c term))
        ∨ p = (dist, .node term [])
  | [], h => by
    simp only [insertChildren, List.mem_singleton] at h
    exact Or.inr (Or.inr h)
  | (d, c) :: rest, h => by
    simp only [insertChildren] at h
    by_cases hd : d = dist
    · rw [if_pos hd] at h
      rcases List.mem_cons.mp h with h | h
      · subst hd
        exact Or.inr (Or.inl ⟨c, List.mem_cons_self _ _, h⟩)
      · exact Or.inl (List.mem_cons_of_mem _ h)
    · rw [if_neg hd] at h
      rcases List.mem_cons.mp h with h | h
      · exact Or.inl (h ▸ List.mem_cons_self _ _)
      · rcases insertChildren_cases rest h with h | ⟨c', hm, hp⟩ | h
        · exact Or.inl (List.mem_cons_of_mem _ h)
        · exact Or.inr (Or.inl ⟨c', List.mem_cons_of_mem _ hm, hp⟩)
        · exact Or.inr (Or.inr h)

/-- The edge weights after a child-list update: unchanged when an edge of
weight `dist` already existed, otherwise with `dist` appended. -/
theorem insertChildren_map_fst {dist : Int} {term : String} :
    (cs : List (Int × BKNode)) →
      (insertChildren cs dist term).map Prod.fst = cs.map Prod.fst
        ∨ ((insertChildren cs dist term).map Prod.fst = cs.map Prod.fst ++ [dist]
            ∧ dist ∉ cs.map Prod.fst)
  | [] => by
    simp [insertChildren]
  | (d, c) :: rest => by
    simp only [insertChildren]
    by_cases hd : d = dist
    · rw [if_pos hd]
      simp
    · rw [if_neg hd]
      rcases @insertChildren_map_fst dist term rest with h | ⟨h1, h2⟩
      · left
        simp [h]
      · right
        constructor
        · simp [h1]
        · simp only [List.map_cons, List.mem_cons]
          rintro (h | h)
          · exact hd h.symm
          · exact h2 h

/-- The terms behind an updated child list are the old ones plus `term`. -/
theorem termsChildren_insertChildren {dist : Int} {term : String} :
    ∀ cs : List (Int × BKNode),
      (∀ d c, (d, c) ∈ cs → ∀ s', s' ∈ termsOf (insertHelper c term) ↔
        s' = term ∨ s' ∈ termsOf c) →
      ∀ s, s ∈ termsChildren (insertChildren cs dist term) ↔
        s = term ∨ s ∈ termsChildren cs := by
  intro cs
  induction cs with
  | nil =>
    intro _ s
    simp [insertChildren, termsChildren, termsOf]
  | cons hd rest ihr =>
    intro hrec s
    obtain ⟨d, c⟩ := hd
    simp only [insertChildren]
    by_cases hdd : d = dist
    · rw [if_pos hdd]
      simp only [termsChildren, List.mem_append]
      rw [hrec d c (List.mem_cons_self _ _) s]
      tauto
    · rw [if_neg hdd]
      simp only [termsChildren, List.mem_append]
      rw [ihr (fun d' c' hm => hrec d' c' (List.mem_cons_of_mem _ hm)) s]
      tauto

/-- Inserting `term` adds exactly `term` to the stored terms. -/
theorem termsOf_insertHelper (term : String) : ∀ n, ∀ s,
    s ∈ termsOf (insertHelper n term) ↔ s = term ∨ s ∈ termsOf n := by
  intro n
  induction n using BKNode.strongInduction with
  | _ t cs ih =>
    intro s
    by_cases h0 : (levenshtein t term : Int) = 0
    · have ht : t = term := by
        apply (levenshtein_eq_zero_iff t term).mp
        exact_mod_cast h0
      simp only [insertHelper, if_pos h0]
      constructor
      · intro h
        exact Or.inr h
      · rintro (h | h)
        · rw [h, ← ht]
          exact term_mem_termsOf (.node t cs)
        · exact h
    · simp only [insertHelper, if_neg h0]
      simp only [termsOf, List.mem_cons]
      rw [termsChildren_insertChildren cs (fun d c hm s' => ih d c hm s') s]
      tauto

/-- Insertion preserves the routing invariant. -/
theorem inv_insertHelper : ∀ n, Inv n → ∀ term, Inv (insertHelper n term) := by
  intro n
  induction n using BKNode.strongInduction with
  | _ t cs ih =>
    intro hInv term
    cases hInv with
    | node hnodup hdist hchild =>
      by_cases h0 : (levenshtein t term : Int) = 0
      · simp only [insertHelper, if_pos h0]
        exact Inv.node hnodup hdist hchild
      · simp only [insertHelper, if_neg h0]
        refine Inv.node ?_ ?_ ?_
        · rcases @insertChildren_map_fst (levenshtein t term : Int) term cs
            with h | ⟨h1, h2⟩
          · rw [h]
            exact hnodup
          · rw [h1]
            simp only [List.nodup_append, List.nodup_singleton, List.disjoint_singleton]
            exact ⟨hnodup, trivial, h2⟩
        · intro d' c' hm
          rcases insertChildren_cases cs hm with h | ⟨c, hmem, hp⟩ | hp
          · exact hdist d' c' h
          · rw [Prod.mk.injEq] at hp
            obtain ⟨hp1, hp2⟩ := hp
            subst hp1
            subst hp2
            refine ⟨h0, fun s hs => ?_⟩
            rcases (termsOf_insertHelper term c s).mp hs with h | h
            · rw [h]
            · exact (hdist _ c hmem).2 s h
          · rw [Prod.mk.injEq] at hp
            obtain ⟨hp1, hp2⟩ := hp
            subst hp1
            subst hp2
            refine ⟨h0, fun s hs => ?_⟩
            simp only [termsOf, termsChildren, List.mem_singleton] at hs
            rw [hs]
        · intro d' c' hm
          rcases insertChildren_cases cs hm with h | ⟨c, hmem, hp⟩ | hp
          · exact hchild d' c' h
          · rw [Prod.mk.injEq] at hp
            obtain ⟨hp1, hp2⟩ := hp
            subst hp1
            subst hp2
            exact ih _ c hmem (hchild _ c hmem) term
          · rw [Prod.mk.injEq] at hp
            obtain ⟨hp1, hp2⟩ := hp
            subst hp1
            subst hp2
            exact Inv.node (by simp) (by simp) (by simp)

/-- The invariant on optional trees (trivial for the empty tree). -/
def InvT : Option BKNode → Prop
  | none => True
  | some n => Inv n

theorem invT_insert (t : Option BKNode) (hi : InvT t) (term : String) :
    InvT (insert t term) := by
  cases t with
  | none =>
    simp only [insert, InvT]
    exact Inv.node (by simp) (by simp) (by simp)
  | some n =>
    simp only [insert, InvT] at hi ⊢
    exact inv_insertHelper n hi term

theorem invT_foldl (ts : List String) : ∀ acc : Option BKNode, InvT acc →
    InvT (ts.foldl insert acc) := by
  induction ts with
  | nil =>
    intro acc h
    exact h
  | cons t ts ihs =>
    intro acc h
    exact ihs (insert acc t) (invT_insert acc h t)

/-- Every tree built by insertions satisfies the routing invariant. -/
theorem invT_build (ts : List String) : InvT (build ts) :=
  invT_foldl ts none trivial

theorem mem_termsOpt_insert (t : Option BKNode) (term s : String) :
    s ∈ termsOpt (insert t term) ↔ s = term ∨ s ∈ termsOpt t := by
  cases t with
  | none => simp [insert, termsOpt, termsOf, termsChildren]
  | some n =>
    simp only [insert, termsOpt]
    exact termsOf_insertHelper term n s

theorem mem_termsOpt_foldl (s : String) : ∀ ts : List String, ∀ acc : Option BKNode,
    (s ∈ termsOpt (ts.foldl insert acc) ↔ s ∈ ts ∨ s ∈ termsOpt acc) := by
  intro ts
  induction ts with
  | nil =>
    intro acc
    simp
  | cons t ts ihs =>
    intro acc
    simp only [List.foldl_cons, List.mem_cons]
    rw [ihs (insert acc t), mem_termsOpt_insert acc t s]
    tauto

/-- The terms stored in a built tree are exactly the inserted ones. -/
theorem mem_termsOpt_build (ts : List String) (s : String) :
    s ∈ termsOpt (build ts) ↔ s ∈ ts := by
  rw [build, mem_termsOpt_foldl s ts none]
  simp [termsOpt]

theorem mem_searchChildren {q : String} {md dist : Int} {p : String × Int} :
    ∀ cs : List (Int × BKNode), (p ∈ searchChildren cs q md dist ↔
      ∃ d c, (d, c) ∈ cs ∧ (dist - md ≤ d ∧ d ≤ dist + md) ∧ p ∈ searchHelper c q md)
  | [] => by simp [searchChildren]
  | (w, c) :: rest => by
    simp only [searchChildren, List.mem_append, mem_searchChildren rest, List.mem_cons]
    by_cases hb : dist - md ≤ w ∧ w ≤ dist + md
    · rw [if_pos hb]
      constructor
      · rintro (h | ⟨d, c', hm, hband, h3⟩)
        · exact ⟨w, c, Or.inl rfl, hb, h⟩
        · exact ⟨d, c', Or.inr hm, hband, h3⟩
      · rintro ⟨d, c', hm | hm, hband, h3⟩
        · rw [Prod.mk.injEq] at hm
          rw [← hm.2]
          exact Or.inl h3
        · exact Or.inr ⟨d, c', hm, hband, h3⟩
    · rw [if_neg hb]
      simp only [List.not_mem_nil, false_or]
      constructor
      · rintro ⟨d, c', hm, hband, h3⟩
        exact ⟨d, c', Or.inr hm, hband, h3⟩
      · rintro ⟨d, c', hm | hm, hband, h3⟩
        · rw [Prod.mk.injEq] at hm
          rw [hm.1] at hband
          exact absurd hband hb
        · exact ⟨d, c', hm, hband, h3⟩

/-- Soundness of the traversal: every recorded pair is a stored term with
its true distance to the query, within the bound. -/
theorem searchHelper_sound : ∀ n, ∀ q md (p : String × Int), p ∈ searchHelper n q md →
    p.1 ∈ termsOf n ∧ p.2 = (levenshtein p.1 q : Int) ∧ p.2 ≤ md := by
  intro n
  induction n using BKNode.strongInduction with
  | _ t cs ih =>
    intro q md p hp
    simp only [searchHelper, List.mem_append] at hp
    rcases hp with hp | hp
    · by_cases hc : (levenshtein t q : Int) ≤ md
      · rw [if_pos hc] at hp
        simp only [List.mem_singleton] at hp
        subst hp
        exact ⟨term_mem_termsOf (.node t cs), rfl, hc⟩
      · rw [if_neg hc] at hp
        exact absurd hp (List.not_mem_nil p)
    · rcases (mem_searchChildren cs).mp hp with ⟨d, c, hm, _, h3⟩
      obtain ⟨h1, h2, h3'⟩ := ih d c hm q md p h3
      refine ⟨?_, h2, h3'⟩
      exact mem_termsOf_node.mpr (Or.inr ⟨d, c, hm, h1⟩)

/-- Completeness of the traversal under the routing invariant: every stored
term within `maxDist` of the query is recorded.  The pruning band is
justified by the triangle inequality. -/
theorem searchHelper_complete : ∀ n, Inv n → ∀ q md (s : String), s ∈ termsOf n →
    (levenshtein s q : Int) ≤ md → (s, (levenshtein s q : Int)) ∈ searchHelper n q md := by
  intro n
  induction n using BKNode.strongInduction with
  | _ t cs ih =>
    intro hInv q md s hs hle
    cases hInv with
    | node hnodup hdist hchild =>
      simp only [searchHelper, List.mem_append]
      rcases mem_termsOf_node.mp hs with hst | ⟨d, c, hm, hsc⟩
      · subst hst
        left
        rw [if_pos hle]
        exact List.mem_singleton.mpr rfl
      · right
        apply (mem_searchChildren cs).mpr
        have hd : (levenshtein t s : Int) = d := (hdist d c hm).2 s hsc
        have htri1 : levenshtein t s ≤ levenshtein t q + levenshtein s q := by
          rw [levenshtein_eq_lev, levenshtein_eq_lev, levenshtein_eq_lev]
          calc lev t.data s.data ≤ lev t.data q.data + lev q.data s.data :=
                lev_triangle t.data q.data s.data
            _ = lev t.data q.data + lev s.data q.data := by rw [lev_symm q.data s.data]
        have htri2 : levenshtein t q ≤ levenshtein t s + levenshtein s q := by
          rw [levenshtein_eq_lev, levenshtein_eq_lev, levenshtein_eq_lev]
          exact lev_triangle t.data s.data q.data
        refine ⟨d, c, hm, ⟨?_, ?_⟩, ih d c hm (hchild d c hm) q md s hsc hle⟩
        · omega
        · omega

theorem mem_map_fst_searchChildren {q : String} {md dist : Int} {s : String}
    (cs : List (Int × BKNode)) (h : s ∈ (searchChildren cs q md dist).map Prod.fst) :
    ∃ d c, (d, c) ∈ cs ∧ s ∈ termsOf c := by
  rcases List.mem_map.mp h with ⟨p, hp, hps⟩
  rcases (mem_searchChildren cs).mp hp with ⟨d, c, hm, _, h3⟩
  exact ⟨d, c, hm, hps ▸ (searchHelper_sound c q md p h3).1⟩

/-- The child loop never reports the same term from two different
children: subtrees behind distinct edge weights hold disjoint term sets. -/
theorem searchChildren_nodup {t q : String} {md dist : Int} :
    ∀ cs : List (Int × BKNode),
      (cs.map Prod.fst).Nodup →
      (∀ d c, (d, c) ∈ cs → ∀ s, s ∈ termsOf c → (levenshtein t s : Int) = d) →
      (∀ d c, (d, c) ∈ cs → ((searchHelper c q md).map Prod.fst).Nodup) →
      ((searchChildren cs q md dist).map Prod.fst).Nodup := by
  intro cs
  induction cs with
  | nil =>
    intro _ _ _
    simp [searchChildren]
  | cons hd rest ihr =>
    intro hnodup hterm hsub
    obtain ⟨w, c⟩ := hd
    simp only [searchChildren, List.map_append, List.nodup_append]
    refine ⟨?_, ?_, ?_⟩
    · by_cases hb : dist - md ≤ w ∧ w ≤ dist + md
      · rw [if_pos hb]
        exact hsub w c (List.mem_cons_self _ _)
      · rw [if_neg hb]
        simp
    · exact ihr (List.nodup_cons.mp (by simpa using hnodup)).2
        (fun d c' hm => hterm d c' (List.mem_cons_of_mem _ hm))
        (fun d c' hm => hsub d c' (List.mem_cons_of_mem _ hm))
    · intro s hs
      by_cases hb : dist - md ≤ w ∧ w ≤ dist + md
      · rw [if_pos hb] at hs
        intro hs'
        rcases List.mem_map.mp hs with ⟨p, hp, hps⟩
        have hsc : s ∈ termsOf c := hps ▸ (searchHelper_sound c q md p hp).1
        have hw : (levenshtein t s : Int) = w := hterm w c (List.mem_cons_self _ _) s hsc
        rcases mem_map_fst_searchChildren rest hs' with ⟨d', c', hm', hsc'⟩
        have hd' : (levenshtein t s : Int) = d' :=
          hterm d' c' (List.mem_cons_of_mem _ hm') s hsc'
        have : w ∈ rest.map Prod.fst := by
          rw [hw] at hd'
          rw [hd']
          exact List.mem_map.mpr ⟨(d', c'), hm', rfl⟩
        exact (List.nodup_cons.mp (by simpa using hnodup)).1 this
      · rw [if_neg hb] at hs
        simp at hs

/-- Under the routing invariant, the traversal reports each term at most
once. -/
theorem searchHelper_nodup : ∀ n, Inv n → ∀ q md,
    ((searchHelper n q md).map Prod.fst).Nodup := by
  intro n
  induction n using BKNode.strongInduction with
  | _ t cs ih =>
    intro hInv q md
    cases hInv with
    | node hnodup hdist hchild =>
      simp only [searchHelper, List.map_append, List.nodup_append]
      refine ⟨?_, ?_, ?_⟩
      · by_cases hc : (levenshtein t q : Int) ≤ md
        · rw [if_pos hc]
          simp
        · rw [if_neg hc]
          simp
      · exact searchChildren_nodup cs hnodup (fun d c hm => (hdist d c hm).2)
          (fun d c hm => ih d c hm (hchild d c hm) q md)
      · intro s hs
        by_cases hc : (levenshtein t q : Int) ≤ md
        · rw [if_pos hc] at hs
          simp only [List.map_cons, List.map_nil, List.mem_singleton] at hs
          subst hs
          intro hs'
          rcases mem_map_fst_searchChildren cs hs' with ⟨d, c, hm, hsc⟩
          have h1 : (levenshtein s s : Int) = d := (hdist d c hm).2 s hsc
          rw [levenshtein_self s] at h1
          exact (hdist d c hm).1 h1.symm
        · rw [if_neg hc] at hs
          simp at hs

theorem resLe_trans : ∀ a b c : String × Int, resLe a b → resLe b c → resLe a c := by
  intro a b c hab hbc
  simp only [resLe, decide_eq_true_eq] at *
  rcases hab with h | ⟨h1, h2⟩ <;> rcases hbc with h' | ⟨h1', h2'⟩
  · exact Or.inl (lt_trans h h')
  · exact Or.inl (h1' ▸ h)
  · exact Or.inl (h1 ▸ h')
  · exact Or.inr ⟨h1.trans h1', le_trans h2 h2'⟩

theorem resLe_total : ∀ a b : String × Int, resLe a b || resLe b a := by
  intro a b
  simp only [resLe, Bool.or_eq_true, decide_eq_true_eq]
  rcases lt_trichotomy a.2 b.2 with h | h | h
  · exact Or.inl (Or.inl h)
  · rcases le_total a.1 b.1 with h' | h'
    · exact Or.inl (Or.inr ⟨h, h'⟩)
    · exact Or.inr (Or.inr ⟨h.symm, h'⟩)
  · exact Or.inr (Or.inl h)

/-- The strict result order of the specification: ascending distance, ties
broken by strictly increasing term. -/
def resLT (a b : String × Int) : Prop :=
  a.2 < b.2 ∨ (a.2 = b.2 ∧ a.1 < b.1)

/-- Characterization of search results on an invariant-satisfying tree. -/
theorem mem_search (t : Option BKNode) (hInv : InvT t) (q : String) (md : Int)
    (s : String) (d : Int) :
    (s, d) ∈ search t q md ↔ s ∈ termsOpt t ∧ d = (levenshtein s q : Int) ∧ d ≤ md := by
  rw [search, List.mem_mergeSort]
  cases t with
  | none => simp [searchRaw, termsOpt]
  | some n =>
    simp only [searchRaw, termsOpt]
    simp only [InvT] at hInv
    constructor
    · intro h
      exact searchHelper_sound n q md (s, d) h
    · rintro ⟨h1, h2, h3⟩
      subst h2
      exact searchHelper_complete n hInv q md s h1 h3

theorem searchRaw_nodup (t : Option BKNode) (hInv : InvT t) (q : String) (md : Int) :
    ((searchRaw t q md).map Prod.fst).Nodup := by
  cases t with
  | none => simp [searchRaw]
  | some n =>
    simp only [InvT] at hInv
    exact searchHelper_nodup n hInv q md

/-- Search results are strictly sorted by (distance, term). -/
theorem search_pairwise (t : Option BKNode) (hInv : InvT t) (q : String) (md : Int) :
    List.Pairwise resLT (search t q md) := by
  have hsorted : (search t q md).Pairwise (fun a b => resLe a b) :=
    List.sorted_mergeSort resLe_trans resLe_total (searchRaw t q md)
  have hperm : List.Perm ((search t q md).map Prod.fst) ((searchRaw t q md).map Prod.fst) :=
    (List.mergeSort_perm (searchRaw t q md) resLe).map Prod.fst
  have hnodup : ((search t q md).map Prod.fst).Nodup :=
    hperm.nodup_iff.mpr (searchRaw_nodup t hInv q md)
  have hne : (search t q md).Pairwise (fun a b => a.1 ≠ b.1) :=
    List.pairwise_map.mp hnodup
  refine (hsorted.and hne).imp ?_
  rintro a b ⟨hab, hne'⟩
  simp only [resLe, decide_eq_true_eq] at hab
  rcases hab with h | ⟨h1, h2⟩
  · exact Or.inl h
  · exact Or.inr ⟨h1, lt_of_le_of_ne h2 hne'⟩

/-- Claim C1: for every tree built by inserting a finite set of terms (in
any order) and every query and `maxDist ≥ 0`, `search` returns exactly the
pairs `(t, distance(t, q))` over stored terms with distance at most
`maxDist`, each term exactly once, sorted ascending by distance with ties
broken by lexicographic term order. -/
theorem spec_C1 (ts : List String) (q : String) (md : Int) (hmd : 0 ≤ md) :
    (∀ s d, ((s, d) ∈ search (build ts) q md ↔
        s ∈ ts ∧ d = (levenshtein s q : Int) ∧ d ≤ md))
      ∧ List.Pairwise resLT (search (build ts) q md) := by
  constructor
  · intro s d
    rw [mem_search (build ts) (invT_build ts) q md s d, mem_termsOpt_build]
  · exact search_pairwise (build ts) (invT_build ts) q md

/-- Witness for C1 at a concrete instance. -/
theorem spec_C1_witness :
    (0 : Int) ≤ 1
      ∧ ((∀ s d, ((s, d) ∈ search (build ["ab"]) "b" 1 ↔
            s ∈ ["ab"] ∧ d = (levenshtein s "b" : Int) ∧ d ≤ 1))
          ∧ List.Pairwise resLT (search (build ["ab"]) "b" 1)) :=
  ⟨by decide, spec_C1 ["ab"] "b" 1 (by decide)⟩

/-- The structural invariant exactly as the specification states it: at
most one child per distance value, every recorded edge distance is the
exact Levenshtein distance between the parent and child terms, and is at
least 1. -/
inductive StructInv : BKNode → Prop where
  | node {t : String} {cs : List (Int × BKNode)}
      (hnodup : (cs.map Prod.fst).Nodup)
      (hedge : ∀ d c, (d, c) ∈ cs → (levenshtein t c.term : Int) = d ∧ 1 ≤ d)
      (hrec : ∀ d c, (d, c) ∈ cs → StructInv c) :
      StructInv (.node t cs)

theorem inv_structInv : ∀ n, Inv n → StructInv n := by
  intro n
  induction n using BKNode.strongInduction with
  | _ t cs ih =>
    intro hInv
    cases hInv with
    | node hnodup hdist hchild =>
      refine StructInv.node hnodup ?_ ?_
      · intro d c hm
        have h1 : (levenshtein t c.term : Int) = d :=
          (hdist d c hm).2 c.term (term_mem_termsOf c)
        have h2 : d ≠ 0 := (hdist d c hm).1
        exact ⟨h1, by omega⟩
      · intro d c hm
        exact ih d c hm (hchild d c hm)

/-- Claim C4: every tree reachable from the empty tree by insertions
satisfies the structural invariant: at most one child per distance, and
every recorded edge distance is the exact parent-child Levenshtein
distance, at least 1. -/
theorem spec_C4 (ts : List String) (n : BKNode) (h : build ts = some n) : StructInv n := by
  have hb := invT_build ts
  rw [h] at hb
  simp only [InvT] at hb
  exact inv_structInv n hb

/-- Witness for C4 at a concrete instance. -/
theorem spec_C4_witness :
    build ["a"] = some (.node "a" []) ∧ StructInv (.node "a" []) :=
  ⟨rfl, spec_C4 ["a"] (.node "a" []) rfl⟩

theorem searchChildren_neg {q : String} {md dist : Int} (hmd : md < 0) :
    ∀ cs : List (Int × BKNode), searchChildren cs q md dist = []
  | [] => by simp [searchChildren]
  | (w, c) :: rest => by
    simp only [searchChildren]
    rw [if_neg (by omega), List.nil_append]
    exact searchChildren_neg hmd rest

theorem searchHelper_neg : ∀ n, ∀ (q : String) (md : Int), md < 0 →
    searchHelper n q md = [] := by
  intro n
  induction n using BKNode.strongInduction with
  | _ t cs _ =>
    intro q md hmd
    simp only [searchHelper]
    rw [if_neg (by omega), List.nil_append]
    exact searchChildren_neg hmd cs

/-- Claim C6: search returns an empty result (not an error) for a negative
`maxDist` on any tree, and on the empty tree for any query and any
`maxDist`. -/
theorem spec_C6 :
    (∀ (t : Option BKNode) (q : String) (md : Int), md < 0 → search t q md = [])
      ∧ (∀ (q : String) (md : Int), search none q md = []) := by
  constructor
  · intro t q md hmd
    cases t with
    | none => simp [search, searchRaw]
    | some n =>
      simp only [search, searchRaw]
      rw [searchHelper_neg n q md hmd]
      simp
  · intro q md
    simp [search, searchRaw]

/-- Witness for C6 at a concrete instance. -/
theorem spec_C6_witness :
    (-1 : Int) < 0 ∧ search (some (.node "a" [])) "b" (-1) = [] :=
  ⟨by decide, spec_C6.1 (some (.node "a" [])) "b" (-1) (by decide)⟩

theorem insertHelper_leaf_self (term : String) :
    insertHelper (.node term []) term = .node term [] := by
  simp [insertHelper, levenshtein_self]

theorem insertChildren_idem {dist : Int} {term : String} :
    ∀ cs : List (Int × BKNode),
      (∀ d c, (d, c) ∈ cs → insertHelper (insertHelper c term) term = insertHelper c term) →
      insertChildren (insertChildren cs dist term) dist term = insertChildren cs dist term := by
  intro cs
  induction cs with
  | nil =>
    intro _
    simp [insertChildren, insertHelper_leaf_self]
  | cons hd rest ihr =>
    intro hrec
    obtain ⟨d, c⟩ := hd
    simp only [insertChildren]
    by_cases hdd : d = dist
    · rw [if_pos hdd]
      simp only [insertChildren, if_pos hdd]
      rw [hrec d c (List.mem_cons_self _ _)]
    · rw [if_neg hdd]
      simp only [insertChildren, if_neg hdd]
      rw [ihr (fun d' c' hm => hrec d' c' (List.mem_cons_of_mem _ hm))]

/-- Re-inserting a term already routed into the tree changes nothing. -/
theorem insertHelper_idem : ∀ n (term : String),
    insertHelper (insertHelper n term) term = insertHelper n term := by
  intro n
  induction n using BKNode.strongInduction with
  | _ t cs ih =>
    intro term
    by_cases h0 : levenshtein t term = 0
    · have e : insertHelper (.node t cs) term = .node t cs := by
        simp [insertHelper, h0]
      rw [e, e]
    · have e : insertHelper (.node t cs) term =
          .node t (insertChildren cs (levenshtein t term) term) := by
        simp [insertHelper, h0]
      have e2 : insertHelper (.node t (insertChildren cs (levenshtein t term) term)) term =
          .node t (insertChildren (insertChildren cs (levenshtein t term) term)
            (levenshtein t term) term) := by
        simp [insertHelper, h0]
      rw [e, e2, insertChildren_idem cs (fun d c hm => ih d c hm term)]

theorem eq_singleton_of_unique {p : String × Int} : ∀ l : List (String × Int),
    l.Nodup → p ∈ l → (∀ q ∈ l, q = p) → l = [p]
  | [], _, hm, _ => absurd hm (List.not_mem_nil p)
  | [x], _, hm, hu => by rw [hu x (List.mem_cons_self _ _)]
  | x :: y :: rest, hn, hm, hu => by
    exfalso
    have hx : x = p := hu x (List.mem_cons_self _ _)
    have hy : y = p := hu y (List.mem_cons_of_mem _ (List.mem_cons_self _ _))
    have : x ∉ y :: rest := (List.nodup_cons.mp hn).1
    exact this (by rw [hx, hy]; exact List.mem_cons_self _ _)

/-- Claim C5: inserting a term that is already stored is a silent no-op
(same resulting tree, no new node), and after inserting a term twice,
`search(term, 0)` returns exactly one match. -/
theorem spec_C5 :
    (∀ (t : Option BKNode) (term : String),
        insert (insert t term) term = insert t term)
      ∧ (∀ (ts : List String) (term : String),
          search (insert (insert (build ts) term) term) term 0 = [(term, 0)]) := by
  constructor
  · intro t term
    cases t with
    | none =>
      show some (insertHelper (.node term []) term) = some (.node term [])
      rw [insertHelper_leaf_self]
    | some n =>
      show some (insertHelper (insertHelper n term) term) = some (insertHelper n term)
      rw [insertHelper_idem]
  · intro ts term
    have hb : insert (insert (build ts) term) term = build (ts ++ [term, term]) := by
      simp [build, List.foldl_append]
    rw [hb]
    have hInv := invT_build (ts ++ [term, term])
    have hmem := fun s d => mem_search (build (ts ++ [term, term])) hInv term 0 s d
    have hp := search_pairwise (build (ts ++ [term, term])) hInv term 0
    apply eq_singleton_of_unique
    · refine hp.imp ?_
      intro a b hab hEq
      rw [hEq] at hab
      rcases hab with h | ⟨_, h⟩
      · exact lt_irrefl _ h
      · exact lt_irrefl _ h
    · apply (hmem term 0).mpr
      refine ⟨(mem_termsOpt_build (ts ++ [term, term]) term).mpr (by simp), ?_, le_refl 0⟩
      rw [levenshtein_self]
      simp
    · rintro ⟨s, d⟩ hq
      obtain ⟨h1, h2, h3⟩ := (hmem s d).mp hq
      have hz : levenshtein s term = 0 := by omega
      have hst : s = term := (levenshtein_eq_zero_iff s term).mp hz
      have hd : d = 0 := by omega
      rw [hst, hd]

/-- Witness for C5's universally quantified statement at a concrete
instance (no hypotheses to discharge; included for concreteness). -/
theorem spec_C5_witness :
    insert (insert (none : Option BKNode) "a") "a" = insert (none : Option BKNode) "a" :=
  spec_C5.1 none "a"

/-- The error taxonomy of the specification, with the C++ exception
message: `IoError` for file-open failure, `FormatError` for malformed
binary content, `IndexOutOfRange` for a serialized child index referencing
a non-existent node. -/
inductive BKError where
  | ioError (msg : String)
  | formatError (msg : String)
  | indexOutOfRange (msg : String)
deriving DecidableEq

/-- The index form of a tree: one record per node, `(term, children)` with
children given as `(distance, child index)` pairs. -/
abbrev SerialForm := List (String × List (Int × Nat))

mutual

/-- Counts of nodes in a subtree. -/
def totalCount : BKNode → Nat
  | .node _ cs => 1 + countChildren cs
termination_by n => sizeOf n
decreasing_by
  all_goals simp only [Prod.mk.sizeOf_spec, BKNode.node.sizeOf_spec, List.cons.sizeOf_spec] <;> omega

def countChildren : List (Int × BKNode) → Nat
  | [] => 0
  | (_, c) :: rest => totalCount c + countChildren rest
termination_by cs => sizeOf cs
decreasing_by
  all_goals simp only [Prod.mk.sizeOf_spec, BKNode.node.sizeOf_spec, List.cons.sizeOf_spec] <;> omega

end

/-- Total node count of a queue of pending subtrees. -/
def queueCount : List BKNode → Nat
  | [] => 0
  | n :: rest => totalCount n + queueCount rest

mutual

/-- Height of a subtree. -/
def height : BKNode → Nat
  | .node _ cs => 1 + heightChildren cs
termination_by n => sizeOf n
decreasing_by
  all_goals simp only [Prod.mk.sizeOf_spec, BKNode.node.sizeOf_spec, List.cons.sizeOf_spec] <;> omega

def heightChildren : List (Int × BKNode) → Nat
  | [] => 0
  | (_, c) :: rest => max (height c) (heightChildren rest)
termination_by cs => sizeOf cs
decreasing_by
  all_goals simp only [Prod.mk.sizeOf_spec, BKNode.node.sizeOf_spec, List.cons.sizeOf_spec] <;> omega

end

theorem queueCount_append : ∀ q1 q2 : List BKNode,
    queueCount (q1 ++ q2) = queueCount q1 + queueCount q2
  | [], q2 => by simp [queueCount]
  | n :: rest, q2 => by
    rw [List.cons_append]
    simp only [queueCount]
    rw [queueCount_append rest q2]
    omega

theorem queueCount_map_snd : ∀ cs : List (Int × BKNode),
    queueCount (cs.map Prod.snd) = countChildren cs
  | [] => by simp [queueCount, countChildren]
  | (d, c) :: rest => by
    simp only [List.map_cons, queueCount, countChildren, queueCount_map_snd rest]

theorem totalCount_pos : ∀ n : BKNode, 1 ≤ totalCount n
  | .node t cs => by
    simp only [totalCount]
    omega

theorem length_le_countChildren : ∀ cs : List (Int × BKNode), cs.length ≤ countChildren cs
  | [] => by simp [countChildren]
  | (d, c) :: rest => by
    have h1 := totalCount_pos c
    have h2 := length_le_countChildren rest
    simp only [countChildren, List.length_cons]
    omega

theorem length_le_queueCount : ∀ q : List BKNode, q.length ≤ queueCount q
  | [] => by simp [queueCount]
  | n :: rest => by
    have h1 := totalCount_pos n
    have h2 := length_le_queueCount rest
    simp only [queueCount, List.length_cons]
    omega

theorem height_mem_le : ∀ cs : List (Int × BKNode), ∀ d c, (d, c) ∈ cs →
    height c ≤ heightChildren cs
  | [], _, _, h => absurd h (List.not_mem_nil _)
  | (d', c') :: rest, d, c, h => by
    rcases List.mem_cons.mp h with h | h
    · rw [Prod.mk.injEq] at h
      simp only [heightChildren, ← h.2]
      omega
    · have := height_mem_le rest d c h
      simp only [heightChildren]
      omega

/-- The index references produced for one node's children during the
breadth-first flattening: the children receive the consecutive indices
`base, base+1, ...` in order, exactly as `collectNodes`
(src/cppmatch.cpp lines 97-123) pushes previously unseen children onto the
node vector. -/
def childRefs : List (Int × BKNode) → Nat → List (Int × Nat)
  | [], _ => []
  | (d, _) :: rest, base => (d, base) :: childRefs rest (base + 1)

/-- The breadth-first flattening of `collectNodes`/`to_serializable`
(src/cppmatch.cpp lines 97-123 and 146-165) for trees without pointer
sharing (every tree built by `insert` or decoded from records): process the
queue in order; the node at the head is emitted as a record whose children
are assigned the next free indices, and the children are appended to the
queue. -/
def serializeQueue : List BKNode → Nat → SerialForm
  | [], _ => []
  | .node t cs :: rest, next =>
    (t, childRefs cs next) :: serializeQueue (rest ++ cs.map Prod.snd) (next + cs.length)
termination_by q _ => queueCount q
decreasing_by
  rw [queueCount_append, queueCount_map_snd]
  simp only [queueCount, totalCount]
  omega

/-- Embedding of `BKTree::to_serializable` (src/cppmatch.cpp lines
146-165): the empty tree serializes to the empty sequence, otherwise the
root is record 0 and the remaining records follow in breadth-first
order. -/
def to_serializable (t : Option BKNode) : SerialForm :=
  match t with
  | none => []
  | some r => serializeQueue [r] 1

/-- Embedding of `BKTree::from_serializable` (src/cppmatch.cpp lines
167-203): an empty sequence yields the empty tree; a child index at or
beyond the record count raises `IndexOutOfRange`; otherwise the records
are wired up as they stand (no further validation) and the tree's root is
the node of record 0.  The reconstructed tree is represented by its record
arena, root at index 0. -/
def from_serializable (data : SerialForm) : Except BKError (Option SerialForm) :=
  if data.length = 0 then .ok none
  else if data.any (fun r => r.2.any (fun p => data.length ≤ p.2)) then
    .error (.indexOutOfRange "BKTree.from_serializable: child index out of range")
  else .ok (some data)

mutual

/-- Reading the pointer structure reconstructed from `records` back as a
value tree, starting at record `i`; `fuel` bounds the depth (the C++
traversals recurse through the pointers, which is well-defined exactly
when the wiring is acyclic). -/
def decodeAt (records : SerialForm) : Nat → Nat → Option BKNode
  | _, 0 => none
  | i, fuel + 1 =>
    match records.get? i with
    | none => none
    | some (t, cs) => (decodeChildren records cs fuel).map (BKNode.node t)
termination_by i fuel => (fuel, 0)

def decodeChildren (records : SerialForm) : List (Int × Nat) → Nat → Option (List (Int × BKNode))
  | [], _ => some []
  | (d, j) :: rest, fuel =>
    match decodeAt records j fuel, decodeChildren records rest fuel with
    | some c, some cs => some ((d, c) :: cs)
    | _, _ => none
termination_by cs fuel => (fuel, cs.length + 1)

end

/-- Claim C7: `from_serializable` raises `IndexOutOfRange` whenever some
child entry's index is at least the record count (in particular when it
equals the count), and an empty input yields an empty tree. -/
theorem spec_C7 :
    (∀ data : SerialForm, (∃ r ∈ data, ∃ p ∈ r.2, data.length ≤ p.2) →
        from_serializable data =
          .error (.indexOutOfRange "BKTree.from_serializable: child index out of range"))
      ∧ from_serializable [] = .ok none := by
  constructor
  · intro data h
    rcases h with ⟨r, hr, p, hp, hle⟩
    have hlen : data.length ≠ 0 := by
      intro h0
      rw [List.length_eq_zero.mp h0] at hr
      exact List.not_mem_nil r hr
    have hany : data.any (fun r => r.2.any (fun p => data.length ≤ p.2)) = true := by
      rw [List.any_eq_true]
      exact ⟨r, hr, by rw [List.any_eq_true]; exact ⟨p, hp, by simpa using hle⟩⟩
    rw [from_serializable, if_neg hlen, if_pos hany]
  · rfl

/-- Witness for C7: a single record whose child index equals the record
count (1) is rejected. -/
theorem spec_C7_witness :
    (∃ r ∈ [("a", [((1 : Int), (1 : Nat))])], ∃ p ∈ r.2, [("a", [((1 : Int), (1 : Nat))])].length ≤ p.2)
      ∧ from_serializable [("a", [((1 : Int), (1 : Nat))])] =
          .error (.indexOutOfRange "BKTree.from_serializable: child index out of range") :=
  ⟨⟨("a", [((1 : Int), (1 : Nat))]), by simp, ((1 : Int), (1 : Nat)), by simp, by simp⟩,
    spec_C7.1 [("a", [((1 : Int), (1 : Nat))])]
      ⟨("a", [((1 : Int), (1 : Nat))]), by simp, ((1 : Int), (1 : Nat)), by simp, by simp⟩⟩

/-- Claim C10: `from_serializable` errors exactly when some child index is
out of range; with all indices in range every non-empty input is accepted
unchanged (arena with root record 0) — including self-referencing (cyclic)
records and records whose stored distances are not the true Levenshtein
distances, since no other validation is performed. -/
theorem spec_C10 (data : SerialForm) :
    ((∃ e, from_serializable data = .error e) ↔ ∃ r ∈ data, ∃ p ∈ r.2, data.length ≤ p.2)
      ∧ (data ≠ [] → (¬∃ r ∈ data, ∃ p ∈ r.2, data.length ≤ p.2) →
          from_serializable data = .ok (some data)) := by
  have hany : (data.any (fun r => r.2.any (fun p => data.length ≤ p.2)) = true) ↔
      ∃ r ∈ data, ∃ p ∈ r.2, data.length ≤ p.2 := by
    rw [List.any_eq_true]
    constructor
    · rintro ⟨r, hr, h⟩
      rw [List.any_eq_true] at h
      rcases h with ⟨p, hp, h⟩
      exact ⟨r, hr, p, hp, by simpa using h⟩
    · rintro ⟨r, hr, p, hp, h⟩
      exact ⟨r, hr, by rw [List.any_eq_true]; exact ⟨p, hp, by simpa using h⟩⟩
  constructor
  · constructor
    · rintro ⟨e, he⟩
      by_cases h0 : data.length = 0
      · rw [from_serializable, if_pos h0] at he
        exact absurd he (by simp)
      · by_cases ha : data.any (fun r => r.2.any (fun p => data.length ≤ p.2)) = true
        · exact hany.mp ha
        · rw [from_serializable, if_neg h0, if_neg ha] at he
          exact absurd he (by simp)
    · intro h
      have h0 : data.length ≠ 0 := by
        rcases h with ⟨r, hr, _⟩
        intro h0
        rw [List.length_eq_zero.mp h0] at hr
        exact List.not_mem_nil r hr
      refine ⟨.indexOutOfRange "BKTree.from_serializable: child index out of range", ?_⟩
      rw [from_serializable, if_neg h0, if_pos (hany.mpr h)]
  · intro hne hnex
    have h0 : data.length ≠ 0 := by
      intro h0
      exact hne (List.length_eq_zero.mp h0)
    have ha : data.any (fun r => r.2.any (fun p => data.length ≤ p.2)) ≠ true := by
      intro ha
      exact hnex (hany.mp ha)
    rw [from_serializable, if_neg h0, if_neg ha]

/-- Witness for C10: a self-referencing record with a fabricated distance
is accepted unchanged. -/
theorem spec_C10_witness :
    ([("a", [((5 : Int), (0 : Nat))])] : SerialForm) ≠ []
      ∧ (¬∃ r ∈ ([("a", [((5 : Int), (0 : Nat))])] : SerialForm), ∃ p ∈ r.2,
          ([("a", [((5 : Int), (0 : Nat))])] : SerialForm).length ≤ p.2)
      ∧ from_serializable [("a", [((5 : Int), (0 : Nat))])] =
          .ok (some [("a", [((5 : Int), (0 : Nat))])]) :=
  ⟨by simp, by simp, (spec_C10 [("a", [((5 : Int), (0 : Nat))])]).2 (by simp) (by simp)⟩

theorem childRefs_mem : ∀ (cs : List (Int × BKNode)) (base : Nat) (p : Int × Nat),
    p ∈ childRefs cs base → base ≤ p.2 ∧ p.2 < base + cs.length
  | [], _, _, h => absurd h (List.not_mem_nil _)
  | (d, c) :: rest, base, p, h => by
    simp only [childRefs, List.mem_cons] at h
    rcases h with h | h
    · subst h
      simp
    · have := childRefs_mem rest (base + 1) p h
      simp only [List.length_cons]
      omega

theorem serializeQueue_length : (q : List BKNode) → (next : Nat) →
    (serializeQueue q next).length = queueCount q
  | [], _ => by simp [serializeQueue, queueCount]
  | .node t cs :: rest, next => by
    simp only [serializeQueue, List.length_cons,
      serializeQueue_length (rest ++ cs.map Prod.snd) (next + cs.length),
      queueCount_append, queueCount_map_snd, queueCount, totalCount]
    omega
termination_by q _ => queueCount q
decreasing_by
  rw [queueCount_append, queueCount_map_snd]
  simp only [queueCount, totalCount]
  omega

/-- Every child reference emitted by the flattening points below the end of
the final record list. -/
theorem serializeQueue_indices : (q : List BKNode) → (next : Nat) →
    ∀ r ∈ serializeQueue q next, ∀ p ∈ r.2, p.2 + q.length < next + queueCount q
  | [], _ => by simp [serializeQueue]
  | .node t cs :: rest, next => by
    intro r hr p hp
    simp only [serializeQueue, List.mem_cons] at hr
    have hcc := length_le_countChildren cs
    have hqr := length_le_queueCount rest
    rcases hr with hr | hr
    · subst hr
      have := childRefs_mem cs next p hp
      simp only [List.length_cons, queueCount, totalCount]
      omega
    · have := serializeQueue_indices (rest ++ cs.map Prod.snd) (next + cs.length) r hr p hp
      simp only [List.length_append, List.length_map, queueCount_append, queueCount_map_snd]
        at this
      simp only [List.length_cons, queueCount, totalCount]
      omega
termination_by q _ => queueCount q
decreasing_by
  rw [queueCount_append, queueCount_map_snd]
  simp only [queueCount, totalCount]
  omega

theorem decodeChildren_childRefs (R : SerialForm) :
    ∀ (cs : List (Int × BKNode)) (base f : Nat),
      (∀ i (h : i < cs.length), decodeAt R (base + i) f = some (cs.get ⟨i, h⟩).2) →
      decodeChildren R (childRefs cs base) f = some cs := by
  intro cs
  induction cs with
  | nil =>
    intro base f _
    simp [childRefs, decodeChildren]
  | cons hd rest ihr =>
    intro base f hdec
    obtain ⟨d, c⟩ := hd
    simp only [childRefs, decodeChildren]
    have h0 : decodeAt R base f = some c := by
      have := hdec 0 (by simp)
      simpa using this
    have hrest : decodeChildren R (childRefs rest (base + 1)) f = some rest := by
      apply ihr (base + 1) f
      intro i h
      have := hdec (i + 1) (by simp; omega)
      have harith : base + (i + 1) = base + 1 + i := by omega
      rw [harith] at this
      simpa using this
    rw [h0, hrest]

/-- Decoding the flattened records reproduces each queued subtree at its
assigned position. -/
theorem decode_serializeQueue : (q : List BKNode) → (next : Nat) → (pre : SerialForm) →
    pre.length + q.length = next →
    (k : Nat) → (hk : k < q.length) → (fuel : Nat) → height (q.get ⟨k, hk⟩) ≤ fuel →
    decodeAt (pre ++ serializeQueue q next) (pre.length + k) fuel = some (q.get ⟨k, hk⟩)
  | [], _, _, _, k, hk, _, _ => absurd hk (by simp)
  | .node t cs :: rest, next, pre, hinv, k, hk, fuel, hf => by
    simp only [List.length_cons] at hinv
    cases k with
    | zero =>
      have hf' : height (.node t cs) ≤ fuel := hf
      simp only [height] at hf'
      cases fuel with
      | zero => omega
      | succ f =>
        simp only [serializeQueue, List.get_eq_getElem, List.getElem_cons_zero]
        have hget : (pre ++ (t, childRefs cs next) ::
            serializeQueue (rest ++ cs.map Prod.snd) (next + cs.length)).get?
              (pre.length + 0) = some (t, childRefs cs next) := by
          rw [List.get?_append_right (by omega)]
          simp
        simp only [decodeAt, hget]
        have hchildren : ∀ i (h : i < cs.length),
            decodeAt (pre ++ (t, childRefs cs next) ::
              serializeQueue (rest ++ cs.map Prod.snd) (next + cs.length)) (next + i) f =
              some (cs.get ⟨i, h⟩).2 := by
          intro i hi
          have hcall := decode_serializeQueue (rest ++ cs.map Prod.snd) (next + cs.length)
            (pre ++ [(t, childRefs cs next)])
            (by simp; omega)
            (rest.length + i) (by simp; omega) f ?_
          · have heq1 : (pre ++ [(t, childRefs cs next)]) ++
                serializeQueue (rest ++ cs.map Prod.snd) (next + cs.length) =
                pre ++ (t, childRefs cs next) ::
                  serializeQueue (rest ++ cs.map Prod.snd) (next + cs.length) := by
              rw [List.append_assoc, List.singleton_append]
            have heq2 : (pre ++ [(t, childRefs cs next)]).length + (rest.length + i) =
                next + i := by
              simp
              omega
            rw [heq1, heq2] at hcall
            rw [hcall]
            congr 1
            simp only [List.get_eq_getElem]
            rw [List.getElem_append_right (by omega)]
            simp
          · simp only [List.get_eq_getElem]
            rw [List.getElem_append_right (by omega)]
            have hidx : rest.length + i - rest.length = i := by omega
            simp only [hidx, List.getElem_map]
            have hmem : (cs.get ⟨i, hi⟩) ∈ cs := List.get_mem cs i hi
            have hb := height_mem_le cs (cs.get ⟨i, hi⟩).1 (cs.get ⟨i, hi⟩).2
              (by simpa using hmem)
            simp only [List.get_eq_getElem] at hb
            omega
        rw [decodeChildren_childRefs _ cs next f hchildren]
        simp
    | succ j =>
      have hcall := decode_serializeQueue (rest ++ cs.map Prod.snd) (next + cs.length)
        (pre ++ [(t, childRefs cs next)])
        (by simp; omega)
        j (by simp only [List.length_cons] at hk; simp; omega) fuel ?_
      · simp only [serializeQueue]
        have heq1 : (pre ++ [(t, childRefs cs next)]) ++
            serializeQueue (rest ++ cs.map Prod.snd) (next + cs.length) =
            pre ++ (t, childRefs cs next) ::
              serializeQueue (rest ++ cs.map Prod.snd) (next + cs.length) := by
          rw [List.append_assoc, List.singleton_append]
        have heq2 : (pre ++ [(t, childRefs cs next)]).length + j = pre.length + (j + 1) := by
          simp
          omega
        rw [heq1, heq2] at hcall
        rw [hcall]
        congr 1
        simp only [List.get_eq_getElem, List.getElem_cons_succ]
        rw [List.getElem_append_left (by simp only [List.length_cons] at hk; omega)]
      · simp only [List.get_eq_getElem] at hf ⊢
        rw [List.getElem_append_left (by simp only [List.length_cons] at hk; omega)]
        simpa using hf
termination_by q _ _ _ _ _ _ _ => queueCount q
decreasing_by
  all_goals rw [queueCount_append, queueCount_map_snd]
  all_goals simp only [queueCount, totalCount]
  all_goals omega

/-- The 8-byte magic/version tag written and checked by `save`/`load`
(src/cppmatch.cpp lines 211 and 248): ASCII `BKTREE1` followed by a zero
byte. -/
def magicBytes : List Nat := [66, 75, 84, 82, 69, 69, 49, 0]

/-- A 4-byte little-endian unsigned 32-bit value. -/
def u32le (x : Nat) : List Nat :=
  [x % 256, x / 256 % 256, x / 65536 % 256, x / 16777216 % 256]

/-- `static_cast<std::uint32_t>` applied to a C++ `int`: two's-complement
reduction modulo `2^32`. -/
def intToU32 (d : Int) : Nat := (d % 4294967296).toNat

/-- `static_cast<int>` applied to a `std::uint32_t`: values at or above
`2^31` become negative (two's complement). -/
def u32ToInt (x : Nat) : Int :=
  if x < 2147483648 then (x : Int) else (x : Int) - 4294967296

/-- One child entry as written by `BKTree::save` (src/cppmatch.cpp lines
227-236): the distance cast to `uint32`, then the child index. -/
def encodeChild (p : Int × Nat) : List Nat :=
  u32le (intToU32 p.1) ++ u32le (p.2 % 4294967296)

/-- One node record as written by `BKTree::save` (src/cppmatch.cpp lines
219-237): 4-byte term length, the term's bytes (as many as the stored
length), 4-byte child count, then the child entries. -/
def encodeRecord (r : String × List (Int × Nat)) : List Nat :=
  u32le (r.1.length % 4294967296) ++ (r.1.data.map Char.toNat).take (r.1.length % 4294967296)
    ++ u32le (r.2.length % 4294967296) ++ (r.2.map encodeChild).flatten

/-- The full binary layout written by `BKTree::save` (src/cppmatch.cpp
lines 205-238): magic tag, 4-byte node count, then the records in index
order. -/
def fileBytes (records : SerialForm) : List Nat :=
  magicBytes ++ u32le (records.length % 4294967296) ++ (records.map encodeRecord).flatten

/-- Embedding of `BKTree::save`: serialize via the same breadth-first
traversal as `to_serializable` (both call `collectNodes`) and emit the
binary layout.  The file itself is the produced byte sequence. -/
def save (t : Option BKNode) : List Nat :=
  fileBytes (to_serializable t)

/-- `in.read(buf, n)` on a byte stream: succeeds exactly when `n` bytes are
available, consuming them. -/
def readBytes (n : Nat) (bs : List Nat) : Option (List Nat × List Nat) :=
  if n ≤ bs.length then some (bs.take n, bs.drop n) else none

/-- Reading one little-endian `uint32` (4 bytes). -/
def readU32 : List Nat → Option (Nat × List Nat)
  | b0 :: b1 :: b2 :: b3 :: rest => some (b0 + 256 * b1 + 65536 * b2 + 16777216 * b3, rest)
  | _ => none

/-- The child-entry loop of `BKTree::load` (src/cppmatch.cpp lines
289-301): read distance and index (one failure check for the pair), reject
an index at or beyond the node count, cast the distance back to `int`. -/
def parseChildren (total : Nat) : Nat → List Nat → Except BKError (List (Int × Nat) × List Nat)
  | 0, bs => .ok ([], bs)
  | c + 1, bs =>
    match readU32 bs with
    | none => .error (.formatError "BKTree.load: failed to read child entry")
    | some (dist, bs1) =>
      match readU32 bs1 with
      | none => .error (.formatError "BKTree.load: failed to read child entry")
      | some (idx, bs2) =>
        if total ≤ idx then .error (.formatError "BKTree.load: child index out of range")
        else
          match parseChildren total c bs2 with
          | .error e => .error e
          | .ok (rest, bs3) => .ok ((u32ToInt dist, idx) :: rest, bs3)

/-- The record loop of `BKTree::load` (src/cppmatch.cpp lines 265-302):
term length, term bytes, child count, child entries — any short read is a
fatal error. -/
def parseRecords (total : Nat) : Nat → List Nat → Except BKError (SerialForm × List Nat)
  | 0, bs => .ok ([], bs)
  | n + 1, bs =>
    match readU32 bs with
    | none => .error (.formatError "BKTree.load: failed to read term length")
    | some (len, bs1) =>
      match readBytes len bs1 with
      | none => .error (.formatError "BKTree.load: failed to read term data")
      | some (chars, bs2) =>
        match readU32 bs2 with
        | none => .error (.formatError "BKTree.load: failed to read child count")
        | some (ccount, bs3) =>
          match parseChildren total ccount bs3 with
          | .error e => .error e
          | .ok (children, bs4) =>
            match parseRecords total n bs4 with
            | .error e => .error e
            | .ok (rest, bs5) =>
              .ok ((String.mk (chars.map Char.ofNat), children) :: rest, bs5)

/-- The stream parser of `BKTree::load` (src/cppmatch.cpp lines 240-307):
validate the magic tag, read the node count, then the records; the root is
record 0 when the count is positive. -/
def parseFile (bs : List Nat) : Except BKError (Option SerialForm × List Nat) :=
  match readBytes 8 bs with
  | none => .error (.formatError "BKTree.load: invalid file header")
  | some (m, bs1) =>
    if m ≠ magicBytes then .error (.formatError "BKTree.load: invalid file header")
    else
      match readU32 bs1 with
      | none => .error (.formatError "BKTree.load: failed to read node count")
      | some (count, bs2) =>
        match parseRecords count count bs2 with
        | .error e => .error e
        | .ok (recs, bs3) => .ok ((if count = 0 then none else some recs), bs3)

/-- Embedding of `BKTree::load`: `none` as input models a file that cannot
be opened (`IoError`); otherwise the byte stream is parsed. -/
def load : Option (List Nat) → Except BKError (Option SerialForm)
  | none => .error (.ioError "BKTree.load: unable to open file for reading")
  | some bs =>
    match parseFile bs with
    | .error e => .error e
    | .ok (t, _) => .ok t

theorem readU32_u32le (x : Nat) (rest : List Nat) :
    readU32 (u32le x ++ rest) = some (x % 4294967296, rest) := by
  simp only [u32le, List.cons_append, List.nil_append, readU32]
  congr 2
  omega

theorem u32ToInt_intToU32 (d : Int) (h1 : -2147483648 ≤ d) (h2 : d < 2147483648) :
    u32ToInt (intToU32 d) = d := by
  simp only [u32ToInt, intToU32]
  split <;> omega

theorem readBytes_exact (l rest : List Nat) :
    readBytes l.length (l ++ rest) = some (l, rest) := by
  simp only [readBytes, List.length_append]
  rw [if_pos (by omega)]
  rw [List.take_left, List.drop_left]

/-- Parsing the encoding of a child list with in-range indices and
`int`-range distances recovers it exactly. -/
theorem parseChildren_encode (total : Nat) (htot : total ≤ 4294967296) :
    ∀ (cs : List (Int × Nat)) (rest : List Nat),
      (∀ p ∈ cs, (-2147483648 ≤ p.1 ∧ p.1 < 2147483648) ∧ p.2 < total) →
      parseChildren total cs.length ((cs.map encodeChild).flatten ++ rest) = .ok (cs, rest)
  | [], rest, _ => by simp [parseChildren]
  | p :: cs, rest, hb => by
    obtain ⟨d, j⟩ := p
    have hbp := hb (d, j) (List.mem_cons_self _ _)
    simp only [List.map_cons, List.flatten_cons, encodeChild, List.append_assoc]
    simp only [List.length_cons, parseChildren, readU32_u32le]
    have hj : j % 4294967296 = j := Nat.mod_eq_of_lt (by omega)
    have hd : intToU32 d % 4294967296 = intToU32 d := by
      simp only [intToU32]
      omega
    rw [hd, hj, hj]
    rw [if_neg (by omega)]
    simp only [parseChildren_encode total htot cs rest
      (fun p hp => hb p (List.mem_cons_of_mem _ hp))]
    rw [u32ToInt_intToU32 d hbp.1.1 hbp.1.2]

/-- Parsing the encoding of a record list with bounded sizes recovers it
exactly. -/
theorem parseRecords_encode (total : Nat) (htot : total ≤ 4294967296) :
    ∀ (recs : SerialForm) (rest : List Nat),
      (∀ r ∈ recs, r.1.length < 4294967296 ∧ r.2.length < 4294967296 ∧
        ∀ p ∈ r.2, (-2147483648 ≤ p.1 ∧ p.1 < 2147483648) ∧ p.2 < total) →
      parseRecords total recs.length ((recs.map encodeRecord).flatten ++ rest) = .ok (recs, rest)
  | [], rest, _ => by simp [parseRecords]
  | r :: recs, rest, hb => by
    obtain ⟨t, cs⟩ := r
    have hbr := hb (t, cs) (List.mem_cons_self _ _)
    simp only [List.map_cons, List.flatten_cons, encodeRecord, List.append_assoc]
    simp only [List.length_cons, parseRecords, readU32_u32le]
    have hlen2 : t.length % 4294967296 = t.length := Nat.mod_eq_of_lt hbr.1
    rw [hlen2, hlen2]
    have hlmap : (t.data.map Char.toNat).length = t.length := by
      rw [List.length_map]
      rfl
    have hterm : (t.data.map Char.toNat).take t.length = t.data.map Char.toNat := by
      rw [← hlmap]
      exact List.take_length _
    rw [hterm, ← hlmap]
    simp only [readBytes_exact]
    simp only [readU32_u32le]
    have hcs : cs.length < 4294967296 := hbr.2.1
    have hcc : cs.length % 4294967296 % 4294967296 = cs.length := by
      omega
    rw [hcc]
    simp only [parseChildren_encode total htot cs _ hbr.2.2]
    simp only [parseRecords_encode total htot recs rest
      (fun r hr => hb r (List.mem_cons_of_mem _ hr))]
    have hstr : String.mk ((t.data.map Char.toNat).map Char.ofNat) = t := by
      simp only [List.map_map]
      have hcomp : (Char.ofNat ∘ Char.toNat) = id := by
        funext c
        simp [Char.ofNat_toNat]
      rw [hcomp, List.map_id]
    rw [hstr]

/-- A size-bounded serial form: all counts and lengths fit in `uint32`,
all distances fit in `int`, and all child indices are in range. -/
def SerialBounded (recs : SerialForm) : Prop :=
  recs.length < 4294967296 ∧ ∀ r ∈ recs, r.1.length < 4294967296 ∧ r.2.length < 4294967296 ∧
    ∀ p ∈ r.2, (-2147483648 ≤ p.1 ∧ p.1 < 2147483648) ∧ p.2 < recs.length

/-- Parsing a saved file with bounded sizes recovers the records. -/
theorem parseFile_fileBytes (recs : SerialForm) (hb : SerialBounded recs) :
    parseFile (fileBytes recs) = .ok ((if recs.length = 0 then none else some recs), []) := by
  obtain ⟨hlen, hrecs⟩ := hb
  simp only [fileBytes, parseFile, List.append_assoc]
  have hmagic : readBytes 8 (magicBytes ++ (u32le (recs.length % 4294967296) ++
      (recs.map encodeRecord).flatten)) = some (magicBytes, u32le (recs.length % 4294967296) ++
      (recs.map encodeRecord).flatten) := by
    have h8 : (8 : Nat) = magicBytes.length := by simp [magicBytes]
    rw [h8, readBytes_exact]
  simp only [hmagic]
  rw [if_neg (fun h => h rfl)]
  simp only [readU32_u32le]
  have hcount : recs.length % 4294967296 % 4294967296 = recs.length := by omega
  rw [hcount]
  have hrec := parseRecords_encode recs.length (by omega) recs [] hrecs
  rw [List.append_nil] at hrec
  simp only [hrec]

theorem from_serializable_ok (data : SerialForm) (h0 : data.length ≠ 0)
    (hidx : ∀ r ∈ data, ∀ p ∈ r.2, p.2 < data.length) :
    from_serializable data = .ok (some data) := by
  have hany : data.any (fun r => r.2.any (fun p => data.length ≤ p.2)) ≠ true := by
    intro hcontra
    rw [List.any_eq_true] at hcontra
    rcases hcontra with ⟨r, hr, h⟩
    rw [List.any_eq_true] at h
    rcases h with ⟨p, hp, h⟩
    have := hidx r hr p hp
    simp only [decide_eq_true_eq] at h
    omega
  rw [from_serializable, if_neg h0, if_neg hany]

theorem to_serializable_length (n : BKNode) :
    (to_serializable (some n)).length = totalCount n := by
  rw [to_serializable, serializeQueue_length]
  simp [queueCount]

theorem decode_to_serializable (n : BKNode) :
    decodeAt (to_serializable (some n)) 0 (height n) = some n := by
  have h := decode_serializeQueue [n] 1 [] (by simp) 0 (by simp) (height n) (le_refl _)
  simpa [to_serializable] using h

/-- Claim C3: serializing and deserializing reproduces the tree.
`from_serializable (to_serializable T)` succeeds and yields the same
record arena, whose pointer structure decodes to exactly the original
tree, so its search results agree with `T`'s for every query and bound;
`load (save T)` yields the same arena; the empty tree also round-trips.
The hypothesis bounds all sizes to the machine widths the binary format
uses (`uint32` counts and lengths, `int` distances). -/
theorem spec_C3 (n : BKNode) (hb : SerialBounded (to_serializable (some n))) :
    from_serializable (to_serializable (some n)) = .ok (some (to_serializable (some n)))
      ∧ load (some (save (some n))) = .ok (some (to_serializable (some n)))
      ∧ decodeAt (to_serializable (some n)) 0 (height n) = some n
      ∧ (∀ q md, search (decodeAt (to_serializable (some n)) 0 (height n)) q md =
          search (some n) q md)
      ∧ from_serializable (to_serializable (none : Option BKNode)) = .ok none
      ∧ load (some (save (none : Option BKNode))) = .ok none := by
  have hlen : (to_serializable (some n)).length ≠ 0 := by
    rw [to_serializable_length]
    have := totalCount_pos n
    omega
  have hdec := decode_to_serializable n
  refine ⟨?_, ?_, hdec, ?_, rfl, ?_⟩
  · exact from_serializable_ok _ hlen (fun r hr p hp => ((hb.2 r hr).2.2 p hp).2)
  · simp only [load, save, parseFile_fileBytes _ hb]
    rw [if_neg hlen]
  · intro q md
    rw [hdec]
  · have hbe : SerialBounded ([] : SerialForm) := by
      constructor
      · simp
      · simp
    simp only [load, save, to_serializable, parseFile_fileBytes [] hbe]
    rfl

/-- Witness for C3 at a concrete one-node tree. -/
theorem spec_C3_witness :
    SerialBounded (to_serializable (some (.node "a" [])))
      ∧ (from_serializable (to_serializable (some (.node "a" []))) =
            .ok (some (to_serializable (some (.node "a" []))))
          ∧ load (some (save (some (.node "a" [])))) =
              .ok (some (to_serializable (some (.node "a" []))))
          ∧ decodeAt (to_serializable (some (.node "a" []))) 0 (height (.node "a" [])) =
              some (.node "a" [])
          ∧ (∀ q md, search (decodeAt (to_serializable (some (.node "a" []))) 0
              (height (.node "a" []))) q md = search (some (.node "a" [])) q md)
          ∧ from_serializable (to_serializable (none : Option BKNode)) = .ok none
          ∧ load (some (save (none : Option BKNode))) = .ok none) := by
  have hb : SerialBounded (to_serializable (some (.node "a" []))) := by
    have he : to_serializable (some (.node "a" [])) = [("a", [])] := by
      simp [to_serializable, serializeQueue, childRefs]
    rw [he]
    refine ⟨by decide, ?_⟩
    intro r hr
    simp only [List.mem_singleton] at hr
    subst hr
    refine ⟨by decide, by decide, ?_⟩
    intro p hp
    simp at hp
  exact ⟨hb, spec_C3 (.node "a" []) hb⟩

theorem parseChildren_error : ∀ (c : Nat) (total : Nat) (bs : List Nat) (e : BKError),
    parseChildren total c bs = .error e → ∃ m, e = .formatError m := by
  intro c
  induction c with
  | zero =>
    intro total bs e h
    simp [parseChildren] at h
  | succ c ih =>
    intro total bs e h
    simp only [parseChildren] at h
    split at h
    · exact ⟨_, (Except.error.inj h).symm⟩
    · split at h
      · exact ⟨_, (Except.error.inj h).symm⟩
      · split at h
        · exact ⟨_, (Except.error.inj h).symm⟩
        · split at h
          · rename_i e' hp
            exact (Except.error.inj h) ▸ ih total _ e' hp
          · simp at h

theorem parseRecords_error : ∀ (n : Nat) (total : Nat) (bs : List Nat) (e : BKError),
    parseRecords total n bs = .error e → ∃ m, e = .formatError m := by
  intro n
  induction n with
  | zero =>
    intro total bs e h
    simp [parseRecords] at h
  | succ n ih =>
    intro total bs e h
    simp only [parseRecords] at h
    split at h
    · exact ⟨_, (Except.error.inj h).symm⟩
    · split at h
      · exact ⟨_, (Except.error.inj h).symm⟩
      · split at h
        · exact ⟨_, (Except.error.inj h).symm⟩
        · split at h
          · rename_i e' hp
            exact (Except.error.inj h) ▸ parseChildren_error _ total _ e' hp
          · split at h
            · rename_i e' hq
              exact (Except.error.inj h) ▸ ih total _ e' hq
            · simp at h

theorem parseFile_error (bs : List Nat) (e : BKError) :
    parseFile bs = .error e → ∃ m, e = .formatError m := by
  intro h
  simp only [parseFile] at h
  split at h
  · exact ⟨_, (Except.error.inj h).symm⟩
  · split at h
    · exact ⟨_, (Except.error.inj h).symm⟩
    · split at h
      · exact ⟨_, (Except.error.inj h).symm⟩
      · split at h
        · rename_i e' hp
          exact (Except.error.inj h) ▸ parseRecords_error _ _ _ e' hp
        · simp at h

/-- The content parser never produces an `IoError`: open-failure errors
are distinct from malformed-content errors. -/
theorem load_error_not_io (bs : List Nat) (e : BKError) (h : load (some bs) = .error e) :
    ∃ m, e = .formatError m := by
  simp only [load] at h
  split at h
  · rename_i e' hp
    exact (Except.error.inj h) ▸ parseFile_error bs e' hp
  · simp at h

theorem load_bad_magic (bs : List Nat) (h : bs.take 8 ≠ magicBytes) :
    load (some bs) = .error (.formatError "BKTree.load: invalid file header") := by
  simp only [load, parseFile, readBytes]
  by_cases h8 : 8 ≤ bs.length
  · simp only [if_pos h8, if_pos h]
  · simp only [if_neg h8]

/-- Parsing encoded child entries whose (wrapped) indices are all in range
succeeds and consumes exactly the encoding. -/
theorem parseChildren_consume (total : Nat) : ∀ (cs : List (Int × Nat)) (rest : List Nat),
    (∀ p ∈ cs, p.2 % 4294967296 < total) →
    ∃ out, parseChildren total cs.length ((cs.map encodeChild).flatten ++ rest) = .ok (out, rest)
  | [], rest, _ => ⟨[], by simp [parseChildren]⟩
  | p :: cs, rest, hb => by
    obtain ⟨d, j⟩ := p
    have hbp := hb (d, j) (List.mem_cons_self _ _)
    obtain ⟨out, hout⟩ := parseChildren_consume total cs rest
      (fun p hp => hb p (List.mem_cons_of_mem _ hp))
    refine ⟨(u32ToInt (intToU32 d), j % 4294967296) :: out, ?_⟩
    simp only [List.map_cons, List.flatten_cons, encodeChild, List.append_assoc]
    simp only [List.length_cons, parseChildren, readU32_u32le]
    have hd : intToU32 d % 4294967296 = intToU32 d := by
      simp only [intToU32]
      omega
    have hjj : j % 4294967296 % 4294967296 = j % 4294967296 := by omega
    rw [hd, hjj]
    rw [if_neg (by omega)]
    simp only [hout]

/-- Parsing encoded child entries that contain an out-of-range index fails
with the out-of-range error (at the first such entry). -/
theorem parseChildren_bad (total : Nat) : ∀ (cs : List (Int × Nat)) (rest : List Nat),
    (∃ p ∈ cs, total ≤ p.2 % 4294967296) →
    parseChildren total cs.length ((cs.map encodeChild).flatten ++ rest) =
      .error (.formatError "BKTree.load: child index out of range")
  | [], _, hex => by simp at hex
  | p :: cs, rest, hex => by
    obtain ⟨d, j⟩ := p
    simp only [List.map_cons, List.flatten_cons, encodeChild, List.append_assoc]
    simp only [List.length_cons, parseChildren, readU32_u32le]
    have hd : intToU32 d % 4294967296 = intToU32 d := by
      simp only [intToU32]
      omega
    have hjj : j % 4294967296 % 4294967296 = j % 4294967296 := by omega
    rw [hd, hjj]
    by_cases hbad : total ≤ j % 4294967296
    · rw [if_pos hbad]
    · rw [if_neg hbad]
      have hex' : ∃ p ∈ cs, total ≤ p.2 % 4294967296 := by
        rcases hex with ⟨p, hp, hle⟩
        rcases List.mem_cons.mp hp with hp | hp
        · exfalso
          rw [hp] at hle
          exact hbad hle
        · exact ⟨p, hp, hle⟩
      simp only [parseChildren_bad total cs rest hex']

/-- Parsing encoded records that contain an out-of-range child index fails
with the out-of-range error. -/
theorem parseRecords_bad (total : Nat) : ∀ (recs : SerialForm) (rest : List Nat),
    (∀ r ∈ recs, r.1.length < 4294967296 ∧ r.2.length < 4294967296 ∧
      ∀ p ∈ r.2, p.2 < 4294967296) →
    (∃ r ∈ recs, ∃ p ∈ r.2, total ≤ p.2) →
    parseRecords total recs.length ((recs.map encodeRecord).flatten ++ rest) =
      .error (.formatError "BKTree.load: child index out of range")
  | [], _, _, hex => by simp at hex
  | r :: recs, rest, hb, hex => by
    obtain ⟨t, cs⟩ := r
    have hbr := hb (t, cs) (List.mem_cons_self _ _)
    simp only [List.map_cons, List.flatten_cons, encodeRecord, List.append_assoc]
    simp only [List.length_cons, parseRecords, readU32_u32le]
    have hlen2 : t.length % 4294967296 = t.length := Nat.mod_eq_of_lt hbr.1
    rw [hlen2, hlen2]
    have hlmap : (t.data.map Char.toNat).length = t.length := by
      rw [List.length_map]
      rfl
    have hterm : (t.data.map Char.toNat).take t.length = t.data.map Char.toNat := by
      rw [← hlmap]
      exact List.take_length _
    rw [hterm, ← hlmap]
    simp only [readBytes_exact]
    simp only [readU32_u32le]
    have hcs : cs.length < 4294967296 := hbr.2.1
    have hcc : cs.length % 4294967296 % 4294967296 = cs.length := by omega
    rw [hcc]
    by_cases hbadhead : ∃ p ∈ cs, total ≤ p.2 % 4294967296
    · simp only [parseChildren_bad total cs _ hbadhead]
    · obtain ⟨out, hout⟩ := parseChildren_consume total cs
        ((recs.map encodeRecord).flatten ++ rest) (by
        intro p hp
        by_cases h : total ≤ p.2 % 4294967296
        · exact absurd ⟨p, hp, h⟩ hbadhead
        · omega)
      simp only [hout]
      have hex' : ∃ r ∈ recs, ∃ p ∈ r.2, total ≤ p.2 := by
        rcases hex with ⟨r, hr, p, hp, hle⟩
        rcases List.mem_cons.mp hr with hr | hr
        · exfalso
          rw [hr] at hp
          have hjb : p.2 < 4294967296 := hbr.2.2 p hp
          exact hbadhead ⟨p, hp, by rw [Nat.mod_eq_of_lt hjb]; exact hle⟩
        · exact ⟨r, hr, p, hp, hle⟩
      simp only [parseRecords_bad total recs rest
        (fun r hr => hb r (List.mem_cons_of_mem _ hr)) hex']

/-- A saved byte stream containing a child index at or beyond the node
count fails to load with the out-of-range `FormatError`. -/
theorem load_bad_index (recs : SerialForm) (hlen : recs.length < 4294967296)
    (hb : ∀ r ∈ recs, r.1.length < 4294967296 ∧ r.2.length < 4294967296 ∧
      ∀ p ∈ r.2, p.2 < 4294967296)
    (hex : ∃ r ∈ recs, ∃ p ∈ r.2, recs.length ≤ p.2) :
    load (some (fileBytes recs)) =
      .error (.formatError "BKTree.load: child index out of range") := by
  simp only [load, fileBytes, parseFile, List.append_assoc]
  have hmagic : readBytes 8 (magicBytes ++ (u32le (recs.length % 4294967296) ++
      (recs.map encodeRecord).flatten)) = some (magicBytes, u32le (recs.length % 4294967296) ++
      (recs.map encodeRecord).flatten) := by
    have h8 : (8 : Nat) = magicBytes.length := by simp [magicBytes]
    rw [h8, readBytes_exact]
  simp only [hmagic]
  rw [if_neg (fun h => h rfl)]
  simp only [readU32_u32le]
  have hcount : recs.length % 4294967296 % 4294967296 = recs.length := by omega
  rw [hcount]
  have hrec := parseRecords_bad recs.length recs [] hb hex
  rw [List.append_nil] at hrec
  simp only [hrec]

theorem readU32_length (bs : List Nat) (v : Nat) (rest : List Nat)
    (h : readU32 bs = some (v, rest)) : bs.length = rest.length + 4 := by
  rcases bs with _ | ⟨b0, _ | ⟨b1, _ | ⟨b2, _ | ⟨b3, r⟩⟩⟩⟩ <;> simp [readU32] at h
  obtain ⟨h1, h2⟩ := h
  subst h2
  simp

theorem readU32_take (bs : List Nat) (v : Nat) (rest : List Nat)
    (h : readU32 bs = some (v, rest)) :
    (∀ k, k < 4 → readU32 (bs.take k) = none) ∧
    (∀ k, 4 ≤ k → readU32 (bs.take k) = some (v, rest.take (k - 4))) := by
  rcases bs with _ | ⟨b0, _ | ⟨b1, _ | ⟨b2, _ | ⟨b3, r⟩⟩⟩⟩ <;> simp [readU32] at h
  obtain ⟨h1, h2⟩ := h
  subst h2
  constructor
  · intro k hk
    rcases k with _ | _ | _ | _ | k
    · rfl
    · rfl
    · rfl
    · rfl
    · omega
  · intro k hk
    obtain ⟨q, rfl⟩ : ∃ q, k = q + 4 := ⟨k - 4, by omega⟩
    simp only [List.take_succ_cons, readU32, Nat.add_sub_cancel]
    rw [h1]

theorem readBytes_some (n : Nat) (bs : List Nat) (v rest : List Nat)
    (h : readBytes n bs = some (v, rest)) :
    n ≤ bs.length ∧ v = bs.take n ∧ rest = bs.drop n := by
  simp only [readBytes] at h
  split at h
  · rename_i hn
    simp only [Option.some.injEq, Prod.mk.injEq] at h
    exact ⟨hn, h.1.symm, h.2.symm⟩
  · simp at h

theorem readBytes_take (n : Nat) (bs : List Nat) (v rest : List Nat)
    (h : readBytes n bs = some (v, rest)) :
    (∀ k, k < n → readBytes n (bs.take k) = none) ∧
    (∀ k, n ≤ k → readBytes n (bs.take k) = some (v, rest.take (k - n))) := by
  obtain ⟨hn, hv, hrest⟩ := readBytes_some n bs v rest h
  constructor
  · intro k hk
    simp only [readBytes]
    rw [if_neg]
    simp only [List.length_take]
    omega
  · intro k hk
    simp only [readBytes]
    rw [if_pos (by simp only [List.length_take]; omega)]
    congr 1
    rw [Prod.mk.injEq]
    constructor
    · rw [hv, List.take_take]
      congr 1
      omega
    · rw [hrest, List.drop_take]

theorem parseChildren_length : ∀ (c total : Nat) (bs : List Nat) (out : List (Int × Nat))
    (rest : List Nat), parseChildren total c bs = .ok (out, rest) →
    bs.length = rest.length + 8 * c := by
  intro c
  induction c with
  | zero =>
    intro total bs out rest h
    simp only [parseChildren, Except.ok.injEq, Prod.mk.injEq] at h
    rw [← h.2]
    simp
  | succ c ih =>
    intro total bs out rest h
    simp only [parseChildren] at h
    cases hr1 : readU32 bs with
    | none =>
      simp only [hr1] at h
      simp at h
    | some v1 =>
      obtain ⟨dist, bs1⟩ := v1
      simp only [hr1] at h
      cases hr2 : readU32 bs1 with
      | none =>
        simp only [hr2] at h
        simp at h
      | some v2 =>
        obtain ⟨idx, bs2⟩ := v2
        simp only [hr2] at h
        by_cases hidx : total ≤ idx
        · rw [if_pos hidx] at h
          simp at h
        · rw [if_neg hidx] at h
          cases hp : parseChildren total c bs2 with
          | error e =>
            simp only [hp] at h
            simp at h
          | ok v3 =>
            obtain ⟨out2, rest2⟩ := v3
            simp only [hp, Except.ok.injEq, Prod.mk.injEq] at h
            have hl1 := readU32_length _ _ _ hr1
            have hl2 := readU32_length _ _ _ hr2
            have hl3 := ih total bs2 out2 rest2 hp
            rw [← h.2]
            omega

theorem parseChildren_take : ∀ (c total : Nat) (bs : List Nat) (out : List (Int × Nat))
    (rest : List Nat), parseChildren total c bs = .ok (out, rest) →
    (∀ k, k + rest.length < bs.length →
      ∃ m, parseChildren total c (bs.take k) = .error (.formatError m)) ∧
    (∀ k, bs.length - rest.length ≤ k →
      parseChildren total c (bs.take k) = .ok (out, rest.take (k - (bs.length - rest.length)))) := by
  intro c
  induction c with
  | zero =>
    intro total bs out rest h
    simp only [parseChildren, Except.ok.injEq, Prod.mk.injEq] at h
    obtain ⟨h1, h2⟩ := h
    subst h1
    subst h2
    constructor
    · intro k hk
      omega
    · intro k hk
      simp [parseChildren]
  | succ c ih =>
    intro total bs out rest h
    simp only [parseChildren] at h
    cases hr1 : readU32 bs with
    | none =>
      simp only [hr1] at h
      simp at h
    | some v1 =>
      obtain ⟨dist, bs1⟩ := v1
      simp only [hr1] at h
      cases hr2 : readU32 bs1 with
      | none =>
        simp only [hr2] at h
        simp at h
      | some v2 =>
        obtain ⟨idx, bs2⟩ := v2
        simp only [hr2] at h
        by_cases hidx : total ≤ idx
        · rw [if_pos hidx] at h
          simp at h
        · rw [if_neg hidx] at h
          cases hp : parseChildren total c bs2 with
          | error e =>
            simp only [hp] at h
            simp at h
          | ok v3 =>
            obtain ⟨out2, rest2⟩ := v3
            simp only [hp, Except.ok.injEq, Prod.mk.injEq] at h
            obtain ⟨hout, hrest⟩ := h
            subst hout
            subst hrest
            have hl1 := readU32_length _ _ _ hr1
            have hl2 := readU32_length _ _ _ hr2
            have hl3 := parseChildren_length c total bs2 out2 rest2 hp
            have htk1 := readU32_take _ _ _ hr1
            have htk2 := readU32_take _ _ _ hr2
            have ihp := ih total bs2 out2 rest2 hp
            constructor
            · intro k hk
              by_cases hk4 : k < 4
              · refine ⟨"BKTree.load: failed to read child entry", ?_⟩
                simp only [parseChildren, htk1.1 k hk4]
              · by_cases hk8 : k < 8
                · refine ⟨"BKTree.load: failed to read child entry", ?_⟩
                  simp only [parseChildren, htk1.2 k (by omega), htk2.1 (k - 4) (by omega)]
                · obtain ⟨m, hm⟩ := ihp.1 (k - 4 - 4) (by omega)
                  refine ⟨m, ?_⟩
                  simp only [parseChildren, htk1.2 k (by omega), htk2.2 (k - 4) (by omega)]
                  rw [if_neg hidx]
                  simp only [hm]
            · intro k hk
              have hcons := ihp.2 (k - 4 - 4) (by omega)
              simp only [parseChildren, htk1.2 k (by omega), htk2.2 (k - 4) (by omega)]
              rw [if_neg hidx]
              simp only [hcons]
              rw [show k - 4 - 4 - (bs2.length - rest2.length) =
                k - (bs.length - rest2.length) from by omega]

theorem parseRecords_length : ∀ (n total : Nat) (bs : List Nat) (out : SerialForm)
    (rest : List Nat), parseRecords total n bs = .ok (out, rest) →
    rest.length ≤ bs.length := by
  intro n
  induction n with
  | zero =>
    intro total bs out rest h
    simp only [parseRecords, Except.ok.injEq, Prod.mk.injEq] at h
    rw [← h.2]
  | succ n ih =>
    intro total bs out rest h
    simp only [parseRecords] at h
    cases hr1 : readU32 bs with
    | none =>
      simp only [hr1] at h
      simp at h
    | some v1 =>
      obtain ⟨len, bs1⟩ := v1
      simp only [hr1] at h
      cases hr2 : readBytes len bs1 with
      | none =>
        simp only [hr2] at h
        simp at h
      | some v2 =>
        obtain ⟨chars, bs2⟩ := v2
        simp only [hr2] at h
        cases hr3 : readU32 bs2 with
        | none =>
          simp only [hr3] at h
          simp at h
        | some v3 =>
          obtain ⟨ccount, bs3⟩ := v3
          simp only [hr3] at h
          cases hp : parseChildren total ccount bs3 with
          | error e =>
            simp only [hp] at h
            simp at h
          | ok v4 =>
            obtain ⟨children, bs4⟩ := v4
            simp only [hp] at h
            cases hq : parseRecords total n bs4 with
            | error e =>
              simp only [hq] at h
              simp at h
            | ok v5 =>
              obtain ⟨out2, rest2⟩ := v5
              simp only [hq, Except.ok.injEq, Prod.mk.injEq] at h
              have hl1 := readU32_length _ _ _ hr1
              have hb2 := readBytes_some _ _ _ _ hr2
              have hl2 : bs2.length = bs1.length - len := by
                rw [hb2.2.2]
                simp
              have hl3 := readU32_length _ _ _ hr3
              have hl4 := parseChildren_length _ _ _ _ _ hp
              have hl5 := ih total bs4 out2 rest2 hq
              rw [← h.2]
              omega

theorem parseRecords_take : ∀ (n total : Nat) (bs : List Nat) (out : SerialForm)
    (rest : List Nat), parseRecords total n bs = .ok (out, rest) →
    (∀ k, k + rest.length < bs.length →
      ∃ m, parseRecords total n (bs.take k) = .error (.formatError m)) ∧
    (∀ k, bs.length - rest.length ≤ k →
      parseRecords total n (bs.take k) = .ok (out, rest.take (k - (bs.length - rest.length)))) := by
  intro n
  induction n with
  | zero =>
    intro total bs out rest h
    simp only [parseRecords, Except.ok.injEq, Prod.mk.injEq] at h
    obtain ⟨h1, h2⟩ := h
    subst h1
    subst h2
    constructor
    · intro k hk
      omega
    · intro k hk
      simp [parseRecords]
  | succ n ih =>
    intro total bs out rest h
    simp only [parseRecords] at h
    cases hr1 : readU32 bs with
    | none =>
      simp only [hr1] at h
      simp at h
    | some v1 =>
      obtain ⟨len, bs1⟩ := v1
      simp only [hr1] at h
      cases hr2 : readBytes len bs1 with
      | none =>
        simp only [hr2] at h
        simp at h
      | some v2 =>
        obtain ⟨chars, bs2⟩ := v2
        simp only [hr2] at h
        cases hr3 : readU32 bs2 with
        | none =>
          simp only [hr3] at h
          simp at h
        | some v3 =>
          obtain ⟨ccount, bs3⟩ := v3
          simp only [hr3] at h
          cases hp : parseChildren total ccount bs3 with
          | error e =>
            simp only [hp] at h
            simp at h
          | ok v4 =>
            obtain ⟨children, bs4⟩ := v4
            simp only [hp] at h
            cases hq : parseRecords total n bs4 with
            | error e =>
              simp only [hq] at h
              simp at h
            | ok v5 =>
              obtain ⟨out2, rest2⟩ := v5
              simp only [hq, Except.ok.injEq, Prod.mk.injEq] at h
              obtain ⟨hout, hrest⟩ := h
              subst hout
              subst hrest
              have hl1 := readU32_length _ _ _ hr1
              have hb2 := readBytes_some _ _ _ _ hr2
              have hl2 : bs1.length = bs2.length + len := by
                rw [hb2.2.2]
                simp only [List.length_drop]
                omega
              have hl3 := readU32_length _ _ _ hr3
              have hl4 := parseChildren_length _ _ _ _ _ hp
              have hl5 := parseRecords_length _ _ _ _ _ hq
              have htk1 := readU32_take _ _ _ hr1
              have htk2 := readBytes_take _ _ _ _ hr2
              have htk3 := readU32_take _ _ _ hr3
              have htk4 := parseChildren_take _ _ _ _ _ hp
              have ihq := ih total bs4 out2 rest2 hq
              constructor
              · intro k hk
                by_cases hc1 : k < 4
                · refine ⟨"BKTree.load: failed to read term length", ?_⟩
                  simp only [parseRecords, htk1.1 k hc1]
                · by_cases hc2 : k - 4 < len
                  · refine ⟨"BKTree.load: failed to read term data", ?_⟩
                    simp only [parseRecords, htk1.2 k (by omega), htk2.1 (k - 4) hc2]
                  · by_cases hc3 : k - 4 - len < 4
                    · refine ⟨"BKTree.load: failed to read child count", ?_⟩
                      simp only [parseRecords, htk1.2 k (by omega),
                        htk2.2 (k - 4) (by omega), htk3.1 (k - 4 - len) hc3]
                    · by_cases hc4 : (k - 4 - len - 4) + bs4.length < bs3.length
                      · obtain ⟨m, hm⟩ := htk4.1 (k - 4 - len - 4) hc4
                        refine ⟨m, ?_⟩
                        simp only [parseRecords, htk1.2 k (by omega),
                          htk2.2 (k - 4) (by omega), htk3.2 (k - 4 - len) (by omega), hm]
                      · obtain ⟨m, hm⟩ := ihq.1 (k - 4 - len - 4 - (bs3.length - bs4.length))
                          (by omega)
                        refine ⟨m, ?_⟩
                        simp only [parseRecords, htk1.2 k (by omega),
                          htk2.2 (k - 4) (by omega), htk3.2 (k - 4 - len) (by omega),
                          htk4.2 (k - 4 - len - 4) (by omega), hm]
              · intro k hk
                have hcons := ihq.2 (k - 4 - len - 4 - (bs3.length - bs4.length)) (by omega)
                simp only [parseRecords, htk1.2 k (by omega), htk2.2 (k - 4) (by omega),
                  htk3.2 (k - 4 - len) (by omega), htk4.2 (k - 4 - len - 4) (by omega), hcons]
                rw [show k - 4 - len - 4 - (bs3.length - bs4.length) -
                  (bs4.length - rest2.length) = k - (bs.length - rest2.length) from by omega]

/-- Truncating a loadable byte stream strictly inside its consumed portion
makes `load` fail with a `FormatError` (short read), never a partial
tree. -/
theorem load_truncated (bs : List Nat) (res : Option SerialForm) (rest : List Nat) (k : Nat)
    (h : parseFile bs = .ok (res, rest)) (hk : k + rest.length < bs.length) :
    ∃ m, load (some (bs.take k)) = .error (.formatError m) := by
  simp only [parseFile] at h
  cases hr1 : readBytes 8 bs with
  | none =>
    simp only [hr1] at h
    simp at h
  | some v1 =>
    obtain ⟨m1, bs1⟩ := v1
    simp only [hr1] at h
    by_cases hmm : m1 ≠ magicBytes
    · rw [if_pos hmm] at h
      simp at h
    · rw [if_neg hmm] at h
      cases hr2 : readU32 bs1 with
      | none =>
        simp only [hr2] at h
        simp at h
      | some v2 =>
        obtain ⟨count, bs2⟩ := v2
        simp only [hr2] at h
        cases hp : parseRecords count count bs2 with
        | error e =>
          simp only [hp] at h
          simp at h
        | ok v3 =>
          obtain ⟨recs, bs3⟩ := v3
          simp only [hp, Except.ok.injEq, Prod.mk.injEq] at h
          obtain ⟨hres, hrest⟩ := h
          subst hrest
          have hmagic : m1 = magicBytes := by
        
        
            by_cases hmc : m1 = magicBytes
            · exact hmc
            · exact absurd hmc hmm
          subst hmagic
          have hb1 := readBytes_some _ _ _ _ hr1
          have hlen1 : bs.length = bs1.length + 8 := by
            rw [hb1.2.2]
            simp only [List.length_drop]
            omega
          have hl2 := readU32_length _ _ _ hr2
          have hl3 := parseRecords_length _ _ _ _ _ hp
          have htk1 := readBytes_take _ _ _ _ hr1
          have htk2 := readU32_take _ _ _ hr2
          have htk3 := parseRecords_take _ _ _ _ _ hp
          by_cases hc1 : k < 8
          · refine ⟨"BKTree.load: invalid file header", ?_⟩
            simp only [load, parseFile, htk1.1 k hc1]
          · by_cases hc2 : k - 8 < 4
            · refine ⟨"BKTree.load: failed to read node count", ?_⟩
              simp only [load, parseFile, htk1.2 k (by omega)]
              rw [if_neg (fun hcon => hcon rfl)]
              simp only [htk2.1 (k - 8) hc2]
            · obtain ⟨m, hmp⟩ := htk3.1 (k - 8 - 4) (by omega)
              refine ⟨m, ?_⟩
              simp only [load, parseFile, htk1.2 k (by omega)]
              rw [if_neg (fun hcon => hcon rfl)]
              simp only [htk2.2 (k - 8) (by omega), hmp]

/-- Claim C8: `load` fails with `IoError` on open failure and with
`FormatError` on a bad magic tag, a truncated stream, or a child index at
or beyond the node count; the open-failure error is distinct from the
malformed-content errors (the parser never produces an `IoError`); and an
error never returns a (partial) tree — in particular a stream whose first
8 bytes differ from the magic tag yields exactly the header
`FormatError`. -/
theorem spec_C8 :
    load none = .error (.ioError "BKTree.load: unable to open file for reading")
      ∧ (∀ bs : List Nat, bs.take 8 ≠ magicBytes →
          load (some bs) = .error (.formatError "BKTree.load: invalid file header"))
      ∧ (∀ (bs : List Nat) (e : BKError), load (some bs) = .error e → ∃ m, e = .formatError m)
      ∧ (∀ (bs : List Nat) (res : Option SerialForm) (rest : List Nat) (k : Nat),
          parseFile bs = .ok (res, rest) → k + rest.length < bs.length →
          ∃ m, load (some (bs.take k)) = .error (.formatError m))
      ∧ (∀ recs : SerialForm, recs.length < 4294967296 →
          (∀ r ∈ recs, r.1.length < 4294967296 ∧ r.2.length < 4294967296 ∧
            ∀ p ∈ r.2, p.2 < 4294967296) →
          (∃ r ∈ recs, ∃ p ∈ r.2, recs.length ≤ p.2) →
          load (some (fileBytes recs)) =
            .error (.formatError "BKTree.load: child index out of range")) :=
  ⟨rfl, load_bad_magic, load_error_not_io, load_truncated, load_bad_index⟩

/-- Witness for C8: the empty stream has a bad magic tag and is
rejected. -/
theorem spec_C8_witness :
    ([] : List Nat).take 8 ≠ magicBytes
      ∧ load (some ([] : List Nat)) = .error (.formatError "BKTree.load: invalid file header") :=
  ⟨by decide, spec_C8.2.1 [] (by decide)⟩

end BKVerify
